import Mathlib

/-!
Verification of the parsium value-parsing engine.

This file gives a shallow embedding of the combinator engine
(src: object / array / basic parsers), the multipart boundary sniffer,
the RAM/disk file accumulators with the adaptive spooling policy,
the field-map scalar-to-sequence upgrade rule, and the streaming
finalization handler, and proves the specified properties about them.

Modelling conventions:
- JavaScript runtime values are modelled by the inductive `Value`
  (plain objects are association lists in property-enumeration order).
- A thrown exception is an `Except.error` carrying a `JsError`:
  `JsError.parsing` models a `ParsingError`, `JsError.other` models any
  other exception (including stack overflow).
- The `object` and `array` combinators are self-recursive in the source
  (JSON fallback, wrap-and-retry); the embedding makes them total with an
  explicit fuel argument, fuel exhaustion yielding the stack-overflow
  exception of the real runtime.
- Node `Buffer`s are lists of byte values; JS builtins used by the source
  (`Buffer.from`, `toString`, `parseInt`, `JSON.parse`) are modelled by
  executable Lean functions below.
-/

namespace Parsium

/-- Model of a JavaScript runtime value as consumed by the parsers. -/
inductive Value where
  | undef : Value
  | null : Value
  | bool (b : Bool) : Value
  | num (n : Int) : Value
  | str (s : String) : Value
  | buf (bytes : List Nat) : Value
  | arr (elems : List Value) : Value
  | obj (entries : List (String × Value)) : Value

/-- A thrown JS exception: a `ParsingError` or any other error. -/
inductive JsError where
  | parsing (msg : String)
  | other (msg : String)
deriving DecidableEq

def JsError.message : JsError → String
  | .parsing m => m
  | .other m => m

/-- Model of `RawParser<T>`: `(value, path) => T`, throwing on failure.
All result types are squashed into `Value`. -/
abbrev RawParser : Type := Value → Option String → Except JsError Value

/-- Template rendering of `${path ?? ""}`. -/
def pathD (p : Option String) : String := p.getD ""

/-- Template rendering of `${path}` (JS prints `undefined` for an absent path). -/
def pathJS (p : Option String) : String := p.getD "undefined"

/-- The child path `${path ?? ""}.${key}` used by the object combinator. -/
def childPath (p : Option String) (k : String) : Option String :=
  some (pathD p ++ "." ++ k)

/-- UTF-8 encoding of one character (model of JS `Buffer.from(string)`). -/
def utf8EncodeChar (c : Char) : List Nat :=
  let n := c.toNat
  if n < 0x80 then [n]
  else if n < 0x800 then [0xC0 + n / 0x40, 0x80 + n % 0x40]
  else if n < 0x10000 then
    [0xE0 + n / 0x1000, 0x80 + (n / 0x40) % 0x40, 0x80 + n % 0x40]
  else
    [0xF0 + n / 0x40000, 0x80 + (n / 0x1000) % 0x40, 0x80 + (n / 0x40) % 0x40, 0x80 + n % 0x40]

/-- UTF-8 encoding of a string as a list of bytes. -/
def jsEncode (s : String) : List Nat := (s.data.map utf8EncodeChar).flatten

/-- UTF-8 decoding (model of `Buffer.toString()`; invalid sequences decode
lossily, like Node replacement behaviour). -/
def utf8DecodeList : List Nat → List Char
  | [] => []
  | b :: rest =>
    if b < 0x80 then Char.ofNat b :: utf8DecodeList rest
    else if b < 0xC0 then Char.ofNat 0xFFFD :: utf8DecodeList rest
    else if b < 0xE0 then
      match rest with
      | b1 :: rest2 => Char.ofNat ((b - 0xC0) * 0x40 + (b1 - 0x80)) :: utf8DecodeList rest2
      | [] => [Char.ofNat 0xFFFD]
    else if b < 0xF0 then
      match rest with
      | b1 :: b2 :: rest3 =>
        Char.ofNat ((b - 0xE0) * 0x1000 + (b1 - 0x80) * 0x40 + (b2 - 0x80)) :: utf8DecodeList rest3
      | _ => [Char.ofNat 0xFFFD]
    else
      match rest with
      | b1 :: b2 :: b3 :: rest4 =>
        Char.ofNat ((b - 0xF0) * 0x40000 + (b1 - 0x80) * 0x1000 + (b2 - 0x80) * 0x40 + (b3 - 0x80))
          :: utf8DecodeList rest4
      | _ => [Char.ofNat 0xFFFD]

/-- Decode a byte list to a string. -/
def jsDecodeStr (bs : List Nat) : String := String.mk (utf8DecodeList bs)

/-- JS whitespace test used by `parseInt` / `JSON.parse` models. -/
def isJsWs (c : Char) : Bool := c = ' ' || c = '\t' || c = '\n' || c = '\r'

def isDigitCh (c : Char) : Bool := '0' ≤ c && c ≤ '9'

def digitsVal (cs : List Char) : Nat :=
  cs.foldl (fun a c => a * 10 + (c.toNat - 48)) 0

/-- Model of JS `parseInt` restricted to decimal input: skip leading
whitespace, optional sign, then leading digits; `none` models `NaN`. -/
def jsParseInt (s : String) : Option Int :=
  let cs := s.data.dropWhile isJsWs
  let core : List Char → Option Nat := fun l =>
    let ds := l.takeWhile isDigitCh
    if ds.isEmpty then none else some (digitsVal ds)
  match cs with
  | '-' :: rest => (core rest).map (fun n => -(n : Int))
  | '+' :: rest => (core rest).map (fun n => (n : Int))
  | _ => (core cs).map (fun n => (n : Int))

/-- JS record assignment `m[k] = v`: replace in place when the key exists,
append otherwise. -/
def recordSet {α : Type} (m : List (String × α)) (k : String) (v : α) : List (String × α) :=
  if m.any (fun kv => kv.1 = k) then m.map (fun kv => if kv.1 = k then (k, v) else kv)
  else m ++ [(k, v)]

/-- Key list of a record. -/
def recKeys {α : Type} (m : List (String × α)) : List String := m.map Prod.fst

/-- Bytes test for the `Array<number> of bytes` branch of `buffer()`:
`Number.isInteger(v) && v >= 0 && v <= 255`. -/
def isByteNum : Value → Bool
  | .num n => 0 ≤ n && n ≤ 255
  | _ => false

def byteOfNum : Value → Nat
  | .num n => (n % 256).toNat
  | _ => 0

/-- The `buffer()` parser from src/basic.ts (the `ArrayBuffer` / typed-array
branches have no counterpart constructor in the value model). -/
def bufferParser : RawParser := fun value path =>
  match value with
  | .buf b => .ok (.buf b)
  | .str s => .ok (.buf (jsEncode s))
  | .arr xs =>
    if xs.all isByteNum then .ok (.buf (xs.map byteOfNum))
    else .error (.parsing ("[" ++ pathD path ++ "] cannot be converted to a Buffer"))
  | .obj es =>
    match List.lookup "type" es, List.lookup "data" es with
    | some (.str "Buffer"), some (.arr ds) => .ok (.buf (ds.map byteOfNum))
    | _, _ => .error (.parsing ("[" ++ pathD path ++ "] cannot be converted to a Buffer"))
  | _ => .error (.parsing ("[" ++ pathD path ++ "] cannot be converted to a Buffer"))

structure StrOptions where
  min : Option Nat := none
  max : Option Nat := none
deriving DecidableEq

/-- The `string(options)` parser from src/basic.ts (the `pattern` option,
a JS RegExp, is outside the model and omitted). -/
def stringParser (opts : StrOptions) : RawParser := fun value path =>
  let coerced : Except JsError String :=
    match value with
    | .str s => .ok s
    | .num n => .ok (toString n)
    | _ =>
      match bufferParser value path with
      | .ok (.buf b) => .ok (jsDecodeStr b)
      | _ => .error (.parsing ("[" ++ pathD path ++ "] cannot be converted to a string"))
  match coerced with
  | .error e => .error e
  | .ok strValue =>
    match opts.min with
    | some m =>
      if strValue.length < m then
        .error (.parsing ("[length(" ++ pathD path ++ ")] is less than the allowed minimum (" ++ toString m ++ ")"))
      else
        match opts.max with
        | some mx =>
          if strValue.length > mx then
            .error (.parsing ("[length(" ++ pathD path ++ ")] is larger than the allowed maximum (" ++ toString mx ++ ")"))
          else .ok (.str strValue)
        | none => .ok (.str strValue)
    | none =>
      match opts.max with
      | some mx =>
        if strValue.length > mx then
          .error (.parsing ("[length(" ++ pathD path ++ ")] is larger than the allowed maximum (" ++ toString mx ++ ")"))
        else .ok (.str strValue)
      | none => .ok (.str strValue)

structure IntOptions where
  min : Option Int := none
  max : Option Int := none
deriving DecidableEq

/-- The `int(options)` parser from src/basic.ts. A `none` intermediate
models `NaN` from `parseInt`. -/
def intParser (opts : IntOptions) : RawParser := fun value path =>
  let numValue : Except JsError (Option Int) :=
    match value with
    | .num n => .ok (some n)
    | _ =>
      match stringParser {} value path with
      | .ok (.str s) => .ok (jsParseInt s)
      | .ok _ => .ok none
      | .error _ => .error (.parsing ("[" ++ pathD path ++ "] cannot be parsed as integer"))
  match numValue with
  | .error e => .error e
  | .ok none => .error (.parsing ("[" ++ pathD path ++ "] should be an integer"))
  | .ok (some n) =>
    match opts.min with
    | some m =>
      if n < m then
        .error (.parsing ("[" ++ pathD path ++ "] is less than the allowed minimum (" ++ toString m ++ ")"))
      else
        match opts.max with
        | some mx =>
          if n > mx then
            .error (.parsing ("[" ++ pathD path ++ "] is larger than the allowed maximum (" ++ toString mx ++ ")"))
          else .ok (.num n)
        | none => .ok (.num n)
    | none =>
      match opts.max with
      | some mx =>
        if n > mx then
          .error (.parsing ("[" ++ pathD path ++ "] is larger than the allowed maximum (" ++ toString mx ++ ")"))
        else .ok (.num n)
      | none => .ok (.num n)

/-- The `transform(parser, fn)` combinator from src/util.ts. -/
def transform (p : RawParser) (fn : Value → Value) : RawParser := fun value path =>
  match p value path with
  | .ok parsed => .ok (fn parsed)
  | .error e => .error e

/-- Characters of a simple JSON string literal body, handling the common
escapes (model only; `JSON.parse` is a JS builtin). Returns the decoded
characters and the remainder after the closing quote. -/
def jsonStringBody : List Char → Option (List Char × List Char)
  | [] => none
  | '"' :: rest => some ([], rest)
  | '\\' :: e :: rest =>
    let dec : Option Char :=
      match e with
      | '"' => some '"'
      | '\\' => some '\\'
      | '/' => some '/'
      | 'n' => some '\n'
      | 't' => some '\t'
      | 'r' => some '\r'
      | _ => none
    match dec with
    | none => none
    | some c =>
      match jsonStringBody rest with
      | some (cs, rem) => some (c :: cs, rem)
      | none => none
  | c :: rest =>
    match jsonStringBody rest with
    | some (cs, rem) => some (c :: cs, rem)
    | none => none

def jsonNumber (cs : List Char) : Option (Int × List Char) :=
  match cs with
  | '-' :: rest =>
    let ds := rest.takeWhile isDigitCh
    if ds.isEmpty then none else some (-(digitsVal ds : Int), rest.drop ds.length)
  | _ =>
    let ds := cs.takeWhile isDigitCh
    if ds.isEmpty then none else some ((digitsVal ds : Int), cs.drop ds.length)

mutual

/-- Recursive-descent model of `JSON.parse` (integer numbers only; a
fractional part makes the model fail where JS would succeed, which is
conservative and unexercised by the combinators under verification). -/
def jsonVal : Nat → List Char → Option (Value × List Char)
  | 0, _ => none
  | fuel + 1, cs =>
    match cs.dropWhile isJsWs with
    | 'n' :: 'u' :: 'l' :: 'l' :: rest => some (.null, rest)
    | 't' :: 'r' :: 'u' :: 'e' :: rest => some (.bool true, rest)
    | 'f' :: 'a' :: 'l' :: 's' :: 'e' :: rest => some (.bool false, rest)
    | '"' :: rest =>
      match jsonStringBody rest with
      | some (cs2, rem) => some (.str (String.mk cs2), rem)
      | none => none
    | '[' :: rest =>
      (match rest.dropWhile isJsWs with
       | ']' :: rem => some (.arr [], rem)
       | _ =>
         match jsonElems fuel rest with
         | some (xs, rem) => some (.arr xs, rem)
         | none => none)
    | '{' :: rest =>
      (match rest.dropWhile isJsWs with
       | '\x7d' :: rem => some (.obj [], rem)
       | _ =>
         match jsonMembers fuel rest with
         | some (es, rem) => some (.obj es, rem)
         | none => none)
    | rest =>
      match jsonNumber rest with
      | some (n, rem) => some (.num n, rem)
      | none => none

def jsonElems : Nat → List Char → Option (List Value × List Char)
  | 0, _ => none
  | fuel + 1, cs =>
    match jsonVal fuel cs with
    | none => none
    | some (v, rem) =>
      match rem.dropWhile isJsWs with
      | ',' :: rem2 =>
        match jsonElems fuel rem2 with
        | some (xs, rem3) => some (v :: xs, rem3)
        | none => none
      | ']' :: rem2 => some ([v], rem2)
      | _ => none

def jsonMembers : Nat → List Char → Option (List (String × Value) × List Char)
  | 0, _ => none
  | fuel + 1, cs =>
    match cs.dropWhile isJsWs with
    | '"' :: rest =>
      match jsonStringBody rest with
      | none => none
      | some (kcs, rem) =>
        match rem.dropWhile isJsWs with
        | ':' :: rem2 =>
          match jsonVal fuel rem2 with
          | none => none
          | some (v, rem3) =>
            match rem3.dropWhile isJsWs with
            | ',' :: rem4 =>
              match jsonMembers fuel rem4 with
              | some (es, rem5) =>
                if es.any (fun kv => kv.1 = String.mk kcs) then some (es, rem5)
                else some ((String.mk kcs, v) :: es, rem5)
              | none => none
            | '\x7d' :: rem4 => some ([(String.mk kcs, v)], rem4)
            | _ => none
        | _ => none
    | _ => none

end

/-- Model of `JSON.parse`: `none` models a thrown `SyntaxError`. -/
def jsonParse (s : String) : Option Value :=
  match jsonVal (s.length + 1) s.data with
  | some (v, rem) => if (rem.dropWhile isJsWs).isEmpty then some v else none
  | none => none

/-- `typeof value === 'object'` over the value model. -/
def typeofObject : Value → Bool
  | .null => true
  | .buf _ => true
  | .arr _ => true
  | .obj _ => true
  | _ => false

/-- `value instanceof Buffer`. -/
def isBufferV : Value → Bool
  | .buf _ => true
  | _ => false

/-- `value === null`. -/
def isNullV : Value → Bool
  | .null => true
  | _ => false

/-- `Object.entries(value)` for the structured values the object combinator
iterates (array indices enumerate as decimal string keys). -/
def jsEntries : Value → List (String × Value)
  | .obj es => es
  | .arr xs => xs.enum.map (fun iv => (toString iv.1, iv.2))
  | _ => []

/-- Options record of `object(shape, options)`. A missing `ignoreUnknown`
is falsy in the `!options.ignoreUnknown` test, exactly like `false`. -/
structure ObjOptions where
  ignoreUnknown : Option Bool := some true
deriving DecidableEq

/-- The default options value `{ ignoreUnknown: true }`. -/
def defaultObjOptions : ObjOptions := {}

/-- A shape: the declared `(key, parser)` pairs in declaration order. -/
abbrev Shape : Type := List (String × RawParser)

/-- First loop of the object value-transform: iterate `Object.entries(value)`,
parse the keys declared in the shape (collecting `ParsingError`s, swallowing
other exceptions), and throw at once on an unknown key when
`!options.ignoreUnknown`. -/
def processEntries (shape : Shape) (opts : ObjOptions) (path : Option String) :
    List (String × Value) → List (String × Value) → List String →
    Except JsError (List (String × Value) × List String)
  | [], result, errs => .ok (result, errs)
  | (k, v) :: rest, result, errs =>
    match List.lookup k shape with
    | some p =>
      match p v (childPath path k) with
      | .ok r => processEntries shape opts path rest (recordSet result k r) errs
      | .error (.parsing m) => processEntries shape opts path rest result (errs ++ [m])
      | .error (.other _) => processEntries shape opts path rest result errs
    | none =>
      if opts.ignoreUnknown.getD false then processEntries shape opts path rest result errs
      else .error (.parsing ("[" ++ pathD path ++ "." ++ k ++ "] is not allowed"))

/-- Second loop of the object value-transform: every shape key absent from
the input is parsed from `undefined`; any failure becomes a
`"… is required"` message. -/
def processMissing (path : Option String) (valueKeys : List String) :
    Shape → List (String × Value) → List String →
    List (String × Value) × List String
  | [], result, errs => (result, errs)
  | (k, p) :: rest, result, errs =>
    if valueKeys.contains k then processMissing path valueKeys rest result errs
    else
      match p .undef (childPath path k) with
      | .ok r => processMissing path valueKeys rest (recordSet result k r) errs
      | .error _ =>
        processMissing path valueKeys rest result
          (errs ++ ["[" ++ pathD path ++ "." ++ k ++ "] is required"])

/-- The `object(shape, options)` value-transform from src (the parser the
spec calls the object combinator's synchronous path). The fuel bounds the
JSON-fallback self-recursion; fuel exhaustion models the exhausted JS call
stack. -/
def objectVT (shape : Shape) (opts : ObjOptions) : Nat → RawParser
  | 0 => fun _ _ => .error (.other "Maximum call stack size exceeded")
  | fuel + 1 => fun value path =>
    if typeofObject value && !isNullV value && !isBufferV value then
      match processEntries shape opts path (jsEntries value) [] [] with
      | .error e => .error e
      | .ok (result, errs) =>
        let step2 := processMissing path (recKeys (jsEntries value)) shape result errs
        if step2.2.isEmpty then .ok (.obj step2.1)
        else .error (.parsing (String.intercalate "\n" step2.2))
    else
      let attempt : Except JsError Value :=
        match stringParser {} value path with
        | .error e => .error e
        | .ok (.str s) =>
          match jsonParse s with
          | some j => objectVT shape opts fuel j path
          | none => .error (.other "SyntaxError")
        | .ok _ => .error (.other "SyntaxError")
      match attempt with
      | .ok r => .ok r
      | .error _ => .error (.parsing ("[" ++ pathJS path ++ "] cannot be converted to an object"))

structure ArrOptions where
  min : Option Nat := none
  max : Option Nat := none
deriving DecidableEq

/-- The element path `${path}[${index}]` of the array combinator (the JS
template renders an absent path as `undefined`). -/
def elemPath (path : Option String) (i : Nat) : Option String :=
  some (pathJS path ++ "[" ++ toString i ++ "]")

/-- Element loop of `array`: one pass over the elements pushing successes
into `ret` and `ParsingError` messages into `errors` (other exceptions are
swallowed); element `index` is parsed at path `${path}[${index}]`. -/
def arrayElems (p : RawParser) (path : Option String) : Nat → List Value → List Value × List String
  | _, [] => ([], [])
  | i, x :: rest =>
    let tail := arrayElems p path (i + 1) rest
    match p x (elemPath path i) with
    | .ok r => (r :: tail.1, tail.2)
    | .error (.parsing m) => (tail.1, m :: tail.2)
    | .error (.other _) => tail

/-- The `array(parser, options)` value-transform from src. The fuel bounds
the wrap-and-retry self-recursion (`[value]`); fuel exhaustion models the
exhausted JS call stack, whose error the retry sites catch like any other. -/
def arrayVT (p : RawParser) (opts : ArrOptions) : Nat → RawParser
  | 0 => fun _ _ => .error (.other "Maximum call stack size exceeded")
  | fuel + 1 => fun value path =>
    match value with
    | .arr xs =>
      if opts.min.isSome ∧ xs.length < opts.min.getD 0 then
        .error (.parsing ("[length(" ++ pathD path ++ ")] is less than the allowed minimum ("
          ++ toString (opts.min.getD 0) ++ ")"))
      else if opts.max.isSome ∧ xs.length > opts.max.getD 0 then
        .error (.parsing ("[length(" ++ pathD path ++ ")] is larger than the allowed maximum ("
          ++ toString (opts.max.getD 0) ++ ")"))
      else
        let pass := arrayElems p path 0 xs
        if pass.2.isEmpty then .ok (.arr pass.1)
        else
          match arrayVT p opts fuel (.arr [value]) path with
          | .ok r => .ok r
          | .error _ => .error (.parsing (String.intercalate "\n" pass.2))
    | _ =>
      match arrayVT p opts fuel (.arr [value]) path with
      | .ok r => .ok r
      | .error _ => .error (.parsing ("[" ++ pathD path ++ "] should be an array\x7d"))

/-- The sniffing cap of src/formdata.ts. -/
def MAX_BUFFER_SIZE : Nat := 1024

/-- `searchBuffer.indexOf('\r\n')`: index of the first CRLF pair. -/
def findCRLF : List Nat → Option Nat
  | [] => none
  | b :: rest =>
    if b = 13 ∧ rest.head? = some 10 then some 0
    else (findCRLF rest).map (· + 1)

/-- The scratch buffer accumulated after the first `k` chunks. -/
def sniffPrefix (chunks : List (List Nat)) (k : Nat) : List Nat := (chunks.take k).flatten

/-- Outcome of boundary sniffing. `pending` models the promise never
settling (stream ended or stalled before any decision); `ok` carries the
boundary token and the consumed scratch bytes that are replayed into the
decoder. -/
inductive SniffResult where
  | pending (acc : List Nat) (flag : Bool)
  | ok (boundary : String) (consumed : List Nat)
  | rejected (msg : String)
deriving DecidableEq

/-- The `onReadable` loop of `parseFormData` (src/formdata.ts) over the
successive chunks of the stream: accumulate into the scratch buffer, reject
once a chunk arrives after the cap was exceeded, and decide on the first
CRLF-terminated line. -/
def sniffRun (acc : List Nat) (flag : Bool) : List (List Nat) → SniffResult
  | [] => .pending acc flag
  | c :: cs =>
    let acc2 := acc ++ c
    if flag then .rejected "Boundary not found within reasonable buffer size"
    else
      let flag2 := decide (acc2.length > MAX_BUFFER_SIZE)
      match findCRLF acc2 with
      | some i =>
        let firstLine := utf8DecodeList (acc2.take i)
        if firstLine.take 2 = ['-', '-'] then .ok (String.mk (firstLine.drop 2)) acc2
        else .rejected "Invalid multipart/form-data: does not start with boundary"
      | none => sniffRun acc2 flag2 cs

/-- Boundary sniffing of a stream with no known boundary, chunk by chunk. -/
def parseFormDataSniff (chunks : List (List Nat)) : SniffResult :=
  sniffRun [] false chunks

/-- The in-memory file accumulator (src RAMFile). -/
structure RAMFile where
  size : Nat := 0
  data : List Nat := []
deriving DecidableEq

/-- `RAMFile.appendSync`: grow `size` by the buffer length and concatenate. -/
def RAMFile.appendSync (f : RAMFile) (buffer : List Nat) : RAMFile :=
  { size := f.size + buffer.length, data := f.data ++ buffer }

/-- `RAMFile.append` delegates to `appendSync`. -/
def RAMFile.append (f : RAMFile) (buffer : List Nat) : RAMFile :=
  f.appendSync buffer

/-- A model of the filesystem the disk-spooled variant writes through to. -/
abbrev FS : Type := List (String × List Nat)

def fsWrite (fs : FS) (p : String) (data : List Nat) : FS := recordSet fs p data

def fsAppend (fs : FS) (p : String) (data : List Nat) : FS :=
  recordSet fs p ((List.lookup p fs).getD [] ++ data)

/-- `RAMFile.saveSync`: persist the in-memory bytes at the given path. -/
def RAMFile.saveSync (f : RAMFile) (p : String) (fs : FS) : FS := fsWrite fs p f.data

/-- The disk-spooled file (src TempFile): a backing path plus the size it is
constructed with. -/
structure TempFile where
  path : String
  size : Nat
deriving DecidableEq

/-- `TempFile.appendSync`: grow `size` and append-through to disk. -/
def TempFile.appendSync (f : TempFile) (buffer : List Nat) (fs : FS) : TempFile × FS :=
  ({ f with size := f.size + buffer.length }, fsAppend fs f.path buffer)

/-- `TempFile.append` has the same effect as `appendSync` in the
single-threaded model. -/
def TempFile.append (f : TempFile) (buffer : List Nat) (fs : FS) : TempFile × FS :=
  ({ f with size := f.size + buffer.length }, fsAppend fs f.path buffer)

/-- The `File` reference held by an accumulation loop: one of the two
variants. -/
inductive FileVar where
  | ram (f : RAMFile)
  | temp (f : TempFile)
deriving DecidableEq

def FileVar.size : FileVar → Nat
  | .ram f => f.size
  | .temp f => f.size

def FileVar.isRAM : FileVar → Bool
  | .ram _ => true
  | .temp _ => false

/-- Spooling options (`maxForRAM`, `tempDir`) of the streaming paths. -/
structure SpoolOptions where
  maxForRAM : Option Nat := none
  tempDir : Option String := none

/-- The configured spooling threshold: `options?.maxForRAM ?? 1024 * 1024`. -/
def SpoolOptions.threshold (opts : SpoolOptions) : Nat :=
  opts.maxForRAM.getD (1024 * 1024)

/-- One `data` event of a file sub-stream (src `file().stream` and the
`busboy.on('file')` handler of `parseFormDataStream`): append the chunk,
then upgrade to the disk-spooled variant when the size now exceeds the
threshold while the reference is still RAM-resident. `freshPath` stands for
the random temp-directory path generated at this step. -/
def fileChunkStep (opts : SpoolOptions) (freshPath : String) :
    FileVar × FS → List Nat → FileVar × FS
  | (.ram f, fs), chunk =>
    let f2 := f.appendSync chunk
    if f2.size > opts.threshold then
      (.temp ⟨freshPath, f2.size⟩, f2.saveSync freshPath fs)
    else (.ram f2, fs)
  | (.temp f, fs), chunk =>
    let r := f.appendSync chunk fs
    (.temp r.1, r.2)

/-- Accumulate a whole sub-stream: fold `fileChunkStep` over the chunks,
drawing the candidate spool path for step `i` from `names i`. -/
def fileAccum (opts : SpoolOptions) (names : Nat → String) :
    Nat → FileVar × FS → List (List Nat) → FileVar × FS
  | _, st, [] => st
  | i, st, c :: cs => fileAccum opts names (i + 1) (fileChunkStep opts (names i) st c) cs

/-- A full accumulation starting, as in the source, from a fresh `RAMFile`. -/
def fileAccumRun (opts : SpoolOptions) (names : Nat → String) (fs0 : FS)
    (chunks : List (List Nat)) : FileVar × FS :=
  fileAccum opts names 0 (.ram {}, fs0) chunks

/-- A value delivered into the field map: a text field value or a completed
file. -/
inductive FieldEntry where
  | str (s : String)
  | file (f : FileVar)
deriving DecidableEq

/-- A field-map slot: scalar until the second occurrence of the name. -/
inductive FieldVal where
  | single (v : FieldEntry)
  | many (vs : List FieldEntry)
deriving DecidableEq

/-- The shared body of the `field` and file-`end` handlers of
`parseFormDataStream`: push when already an array, upgrade scalar to a
two-element array on the second occurrence, store the scalar otherwise. -/
def fieldsPut (fields : List (String × FieldVal)) (name : String) (v : FieldEntry) :
    List (String × FieldVal) :=
  match List.lookup name fields with
  | some (.many xs) => recordSet fields name (.many (xs ++ [v]))
  | some (.single x) => recordSet fields name (.many [x, v])
  | none => recordSet fields name (.single v)

/-- The field map after a sequence of delivered events, in arrival order. -/
def accumFields (events : List (String × FieldEntry)) : List (String × FieldVal) :=
  events.foldl (fun m kv => fieldsPut m kv.1 kv.2) []

/-- The values delivered for one name, in arrival order. -/
def occurrencesOf (k : String) (events : List (String × FieldEntry)) : List FieldEntry :=
  events.filterMap (fun kv => if kv.1 = k then some kv.2 else none)

/-- The slot the upgrade rule must produce for a given arrival-ordered value
list. -/
def fieldRepr : List FieldEntry → Option FieldVal
  | [] => none
  | [v] => some (.single v)
  | vs => some (.many vs)

/-- Settlement of the ingestion promise at `busboy.on('finish')`. -/
inductive StreamOutcome where
  | resolved (v : Value)
  | rejectedList (errs : List JsError)
  | rejectedErr (e : JsError)

/-- Does the outcome reject with exactly one error object? -/
def StreamOutcome.isSingleError : StreamOutcome → Bool
  | .rejectedErr _ => true
  | _ => false

/-- The `finish` handler of `parseFormDataStream`: with collected sub-stream
errors it rejects with the bare error array; otherwise it runs the
synchronous object transform on the accumulated field map, resolving with
its value or rejecting with its thrown error. -/
def busboyFinish (shape : Shape) (opts : ObjOptions) (fuel : Nat)
    (errors : List JsError) (fields : List (String × Value)) (path : Option String) :
    StreamOutcome :=
  if errors.length > 0 then .rejectedList errors
  else
    match objectVT shape opts fuel (.obj fields) path with
    | .ok v => .resolved v
    | .error e => .rejectedErr e

/-! Specification-side descriptions of the object combinator's outcome,
stated independently of the loop implementations: the failing-key messages
and per-key results, each computed by a single pure pass with no early
exit. The main object theorems equate the implementation with these. -/

/-- Messages of every declared input key whose parser throws a
`ParsingError`, in entry order. -/
def declaredFailMsgs (shape : Shape) (path : Option String)
    (entries : List (String × Value)) : List String :=
  entries.filterMap (fun kv =>
    match List.lookup kv.1 shape with
    | some p =>
      match p kv.2 (childPath path kv.1) with
      | .error (.parsing m) => some m
      | _ => none
    | none => none)

/-- Results of every declared input key whose parser succeeds, in entry
order. -/
def declaredResults (shape : Shape) (path : Option String)
    (entries : List (String × Value)) : List (String × Value) :=
  entries.filterMap (fun kv =>
    match List.lookup kv.1 shape with
    | some p =>
      match p kv.2 (childPath path kv.1) with
      | .ok r => some (kv.1, r)
      | _ => none
    | none => none)

/-- Results of the shape keys absent from the input whose parser accepts
`undefined`, in shape order. -/
def missingResults (shape : Shape) (path : Option String)
    (valueKeys : List String) : List (String × Value) :=
  shape.filterMap (fun kp =>
    if valueKeys.contains kp.1 then none
    else
      match kp.2 .undef (childPath path kp.1) with
      | .ok r => some (kp.1, r)
      | .error _ => none)

/-- Required-key messages of the shape keys absent from the input whose
parser rejects `undefined`, in shape order. -/
def missingFailMsgs (shape : Shape) (path : Option String)
    (valueKeys : List String) : List String :=
  shape.filterMap (fun kp =>
    if valueKeys.contains kp.1 then none
    else
      match kp.2 .undef (childPath path kp.1) with
      | .ok _ => none
      | .error _ => some ("[" ++ pathD path ++ "." ++ kp.1 ++ "] is required"))

/-- All aggregated messages of one object parse. -/
def objectFailMsgs (shape : Shape) (path : Option String) (v : Value) : List String :=
  declaredFailMsgs shape path (jsEntries v) ++ missingFailMsgs shape path (recKeys (jsEntries v))

/-- The full success record of one object parse. -/
def objectSuccess (shape : Shape) (path : Option String) (v : Value) : List (String × Value) :=
  declaredResults shape path (jsEntries v) ++ missingResults shape path (recKeys (jsEntries v))

/-- Structural description of a record produced by a successful object
parse: duplicate-free keys covering exactly the shape keys, every stored
value being a successful output of its key's parser at this path. -/
def ShapeOutput (shape : Shape) (path : Option String) (out : List (String × Value)) : Prop :=
  (recKeys out).Nodup ∧
  (∀ k, k ∈ recKeys out ↔ k ∈ recKeys shape) ∧
  (∀ kv ∈ out, ∃ p v, List.lookup kv.1 shape = some p ∧ p v (childPath path kv.1) = .ok kv.2)

/-- Every parser of the shape parses each of its own successful outputs
back to itself. -/
def IdempotentShape (shape : Shape) : Prop :=
  ∀ kp ∈ shape, ∀ v path r, kp.2 v path = .ok r → kp.2 r path = .ok r

/-- No parser of the shape ever throws anything but a `ParsingError`. -/
def NoOtherFailShape (shape : Shape) : Prop :=
  ∀ kp ∈ shape, ∀ v path m, kp.2 v path ≠ .error (.other m)

/-! Record helper lemmas. -/

theorem recKeys_nil {α : Type} : recKeys ([] : List (String × α)) = [] := rfl

theorem recKeys_cons {α : Type} (kv : String × α) (m : List (String × α)) :
    recKeys (kv :: m) = kv.1 :: recKeys m := rfl

theorem recKeys_append {α : Type} (m m2 : List (String × α)) :
    recKeys (m ++ m2) = recKeys m ++ recKeys m2 := by
  simp [recKeys]

theorem recKeys_replace {α : Type} (m : List (String × α)) (k : String) (v : α) :
    recKeys (m.map (fun kv => if kv.1 = k then (k, v) else kv)) = recKeys m := by
  unfold recKeys
  rw [List.map_map]
  apply List.map_congr_left
  intro kv _
  by_cases h : kv.1 = k
  · simp [h]
  · simp [h]

theorem recordSet_not_mem {α : Type} {m : List (String × α)} {k : String} (v : α)
    (h : k ∉ recKeys m) : recordSet m k v = m ++ [(k, v)] := by
  unfold recordSet
  have hany : m.any (fun kv => kv.1 = k) = false := by
    rw [List.any_eq_false]
    intro kv hkv
    simp only [decide_eq_true_eq]
    intro he
    exact h (List.mem_map.2 ⟨kv, hkv, he⟩)
  simp [hany]

theorem recKeys_recordSet_of_not_mem {α : Type} {m : List (String × α)} {k : String} (v : α)
    (h : k ∉ recKeys m) : recKeys (recordSet m k v) = recKeys m ++ [k] := by
  rw [recordSet_not_mem v h, recKeys_append]
  rfl

theorem any_key_eq_true {α : Type} {m : List (String × α)} {k : String}
    (h : k ∈ recKeys m) : m.any (fun kv => kv.1 = k) = true := by
  rw [List.any_eq_true]
  obtain ⟨kv, hkv, he⟩ := List.mem_map.1 h
  exact ⟨kv, hkv, by simp [he]⟩

theorem recKeys_recordSet_nodup {α : Type} {m : List (String × α)} (k : String) (v : α)
    (h : (recKeys m).Nodup) : (recKeys (recordSet m k v)).Nodup := by
  by_cases hk : k ∈ recKeys m
  · unfold recordSet
    rw [any_key_eq_true hk]
    simpa [recKeys_replace] using h
  · rw [recKeys_recordSet_of_not_mem v hk, List.nodup_append]
    exact ⟨h, List.nodup_singleton k, by simpa [List.disjoint_singleton] using hk⟩

theorem mem_recordSet {α : Type} {m : List (String × α)} {k : String} {v : α} {kv : String × α}
    (h : kv ∈ recordSet m k v) : kv ∈ m ∨ kv = (k, v) := by
  unfold recordSet at h
  split at h
  · obtain ⟨a, ha, he⟩ := List.mem_map.1 h
    by_cases h1 : a.1 = k
    · right
      rw [← he]
      simp [h1]
    · left
      rw [if_neg h1] at he
      rw [← he]
      exact ha
  · rcases List.mem_append.1 h with h1 | h1
    · exact Or.inl h1
    · exact Or.inr (by simpa using h1)

theorem mem_keys_recordSet {α : Type} {m : List (String × α)} {k0 : String} (k : String) (v : α)
    (h : k0 ∈ recKeys m) : k0 ∈ recKeys (recordSet m k v) := by
  unfold recordSet
  split
  · rw [recKeys_replace]
    exact h
  · rw [recKeys_append]
    exact List.mem_append_left _ h

theorem self_mem_keys_recordSet {α : Type} (m : List (String × α)) (k : String) (v : α) :
    k ∈ recKeys (recordSet m k v) := by
  by_cases hk : k ∈ recKeys m
  · exact mem_keys_recordSet k v hk
  · rw [recKeys_recordSet_of_not_mem v hk]
    simp

theorem lookup_cons_self {α : Type} (k : String) (v : α) (rest : List (String × α)) :
    List.lookup k ((k, v) :: rest) = some v := by
  simp [List.lookup]

theorem lookup_cons_ne {α : Type} {k k0 : String} (hne : k ≠ k0) (v : α)
    (rest : List (String × α)) : List.lookup k ((k0, v) :: rest) = List.lookup k rest := by
  have hbeq : (k == k0) = false := by simp [hne]
  simp [List.lookup, hbeq]

theorem lookup_isSome_iff {α : Type} (k : String) (m : List (String × α)) :
    (List.lookup k m).isSome = true ↔ k ∈ recKeys m := by
  induction m with
  | nil => simp [List.lookup, recKeys]
  | cons kv rest ih =>
    obtain ⟨k1, v1⟩ := kv
    by_cases h : k = k1
    · rw [h, lookup_cons_self]
      simp [recKeys]
    · rw [lookup_cons_ne h]
      rw [ih]
      simp [recKeys, h]

theorem lookup_eq_of_mem_nodup {α : Type} {m : List (String × α)} (hnd : (recKeys m).Nodup)
    {kv : String × α} (h : kv ∈ m) : List.lookup kv.1 m = some kv.2 := by
  induction m with
  | nil => cases h
  | cons kv0 rest ih =>
    obtain ⟨k1, v1⟩ := kv0
    rcases List.mem_cons.1 h with h1 | h1
    · rw [h1]
      exact lookup_cons_self k1 v1 rest
    · have hne : kv.1 ≠ k1 := by
        intro he
        have hk : k1 ∈ recKeys rest := by
          rw [← he]
          exact List.mem_map.2 ⟨kv, h1, rfl⟩
        exact (List.nodup_cons.1 (by simpa [recKeys] using hnd)).1 hk
      rw [lookup_cons_ne hne]
      exact ih (by simpa [recKeys] using (List.nodup_cons.1 (by simpa [recKeys] using hnd)).2) h1

/-! The two loops of the object value-transform, equated with their
single-pass descriptions. -/

theorem processEntries_eq (shape : Shape) (opts : ObjOptions) (path : Option String)
    (entries : List (String × Value)) :
    ∀ (result : List (String × Value)) (errs : List String),
    (opts.ignoreUnknown.getD false = true ∨ ∀ kv ∈ entries, kv.1 ∈ recKeys shape) →
    (recKeys entries).Nodup →
    (∀ k ∈ recKeys entries, k ∉ recKeys result) →
    processEntries shape opts path entries result errs =
      .ok (result ++ declaredResults shape path entries,
           errs ++ declaredFailMsgs shape path entries) := by
  induction entries with
  | nil =>
    intro result errs _ _ _
    simp [processEntries, declaredResults, declaredFailMsgs]
  | cons kv rest ih =>
    obtain ⟨k, v⟩ := kv
    intro result errs hIg hnd hdisj
    have hndr : (recKeys rest).Nodup := (List.nodup_cons.1 (by simpa [recKeys] using hnd)).2
    have hknr : k ∉ recKeys rest := (List.nodup_cons.1 (by simpa [recKeys] using hnd)).1
    have hIgr : opts.ignoreUnknown.getD false = true ∨ ∀ kv ∈ rest, kv.1 ∈ recKeys shape := by
      rcases hIg with h | h
      · exact Or.inl h
      · exact Or.inr (fun kv hkv => h kv (List.mem_cons_of_mem _ hkv))
    have hdisjr : ∀ k0 ∈ recKeys rest, k0 ∉ recKeys result := by
      intro k0 hk0
      refine hdisj k0 ?_
      rw [recKeys_cons]
      exact List.mem_cons_of_mem _ hk0
    have hknres : k ∉ recKeys result := by
      refine hdisj k ?_
      rw [recKeys_cons]
      exact List.mem_cons_self _ _
    cases hlk : List.lookup k shape with
    | some p =>
      cases hp : p v (childPath path k) with
      | ok r =>
        have hstep : processEntries shape opts path ((k, v) :: rest) result errs =
            processEntries shape opts path rest (recordSet result k r) errs := by
          simp only [processEntries, hlk, hp]
        rw [hstep, recordSet_not_mem r hknres]
        rw [ih (result ++ [(k, r)]) errs hIgr hndr (by
          intro k0 hk0
          rw [recKeys_append]
          intro hmem
          rcases List.mem_append.1 hmem with hm | hm
          · exact hdisjr k0 hk0 hm
          · have hk0k : k0 = k := by simpa [recKeys] using hm
            exact hknr (hk0k ▸ hk0))]
        simp [declaredResults, declaredFailMsgs, List.filterMap_cons, hlk, hp]
      | error e =>
        cases e with
        | parsing m =>
          have hstep : processEntries shape opts path ((k, v) :: rest) result errs =
              processEntries shape opts path rest result (errs ++ [m]) := by
            simp only [processEntries, hlk, hp]
          rw [hstep, ih result (errs ++ [m]) hIgr hndr hdisjr]
          simp [declaredResults, declaredFailMsgs, List.filterMap_cons, hlk, hp]
        | other m =>
          have hstep : processEntries shape opts path ((k, v) :: rest) result errs =
              processEntries shape opts path rest result errs := by
            simp only [processEntries, hlk, hp]
          rw [hstep, ih result errs hIgr hndr hdisjr]
          simp [declaredResults, declaredFailMsgs, List.filterMap_cons, hlk, hp]
    | none =>
      have hig2 : opts.ignoreUnknown.getD false = true := by
        rcases hIg with h | h
        · exact h
        · have hk : k ∈ recKeys shape := h (k, v) (by simp)
          have hsome := (lookup_isSome_iff k shape).2 hk
          rw [hlk] at hsome
          cases hsome
      have hstep : processEntries shape opts path ((k, v) :: rest) result errs =
          processEntries shape opts path rest result errs := by
        simp only [processEntries, hlk, hig2, if_true]
      rw [hstep, ih result errs hIgr hndr hdisjr]
      simp [declaredResults, declaredFailMsgs, List.filterMap_cons, hlk]

theorem processMissing_eq (path : Option String) (valueKeys : List String)
    (shape : Shape) :
    ∀ (result : List (String × Value)) (errs : List String),
    (∀ kp ∈ shape, kp.1 ∉ valueKeys → kp.1 ∉ recKeys result) →
    (recKeys shape).Nodup →
    processMissing path valueKeys shape result errs =
      (result ++ missingResults shape path valueKeys,
       errs ++ missingFailMsgs shape path valueKeys) := by
  induction shape with
  | nil =>
    intro result errs _ _
    simp [processMissing, missingResults, missingFailMsgs]
  | cons kp rest ih =>
    obtain ⟨k, p⟩ := kp
    intro result errs hdisj hnd
    rw [recKeys_cons] at hnd
    have hndr : (recKeys rest).Nodup := (List.nodup_cons.1 hnd).2
    have hknr : k ∉ recKeys rest := (List.nodup_cons.1 hnd).1
    have hdisjr : ∀ kp0 ∈ rest, kp0.1 ∉ valueKeys → kp0.1 ∉ recKeys result :=
      fun kp0 hkp0 hnv => hdisj kp0 (List.mem_cons_of_mem _ hkp0) hnv
    by_cases hin : valueKeys.contains k
    · have hstep : processMissing path valueKeys ((k, p) :: rest) result errs =
          processMissing path valueKeys rest result errs := by
        simp only [processMissing, hin, if_true]
      have him : k ∈ valueKeys := by simpa using hin
      rw [hstep, ih result errs hdisjr hndr]
      simp [missingResults, missingFailMsgs, List.filterMap_cons, him]
    · have hinb : valueKeys.contains k = false := by simpa using hin
      have him : k ∉ valueKeys := by simpa using hin
      cases hp : p .undef (childPath path k) with
      | ok r =>
        have hknres : k ∉ recKeys result :=
          hdisj (k, p) (List.mem_cons_self _ _) (by simpa using hin)
        have hstep : processMissing path valueKeys ((k, p) :: rest) result errs =
            processMissing path valueKeys rest (recordSet result k r) errs := by
          simp only [processMissing, hinb, Bool.false_eq_true, if_false, hp]
        rw [hstep, recordSet_not_mem r hknres]
        rw [ih (result ++ [(k, r)]) errs (by
          intro kp0 hkp0 hnv
          rw [recKeys_append]
          intro hmem
          rcases List.mem_append.1 hmem with hm | hm
          · exact hdisjr kp0 hkp0 hnv hm
          · have heq : kp0.1 = k := by simpa [recKeys] using hm
            exact hknr (heq ▸ List.mem_map.2 ⟨kp0, hkp0, rfl⟩)) hndr]
        simp [missingResults, missingFailMsgs, List.filterMap_cons, him, hp]
      | error e =>
        have hstep : processMissing path valueKeys ((k, p) :: rest) result errs =
            processMissing path valueKeys rest result
              (errs ++ ["[" ++ pathD path ++ "." ++ k ++ "] is required"]) := by
          simp only [processMissing, hinb, Bool.false_eq_true, if_false, hp]
        rw [hstep, ih result _ hdisjr hndr]
        simp [missingResults, missingFailMsgs, List.filterMap_cons, him, hp]

theorem keys_declaredResults_sub (shape : Shape) (path : Option String)
    (entries : List (String × Value)) {k : String}
    (h : k ∈ recKeys (declaredResults shape path entries)) : k ∈ recKeys entries := by
  induction entries with
  | nil => simp [declaredResults, recKeys] at h
  | cons kv rest ih =>
    rw [declaredResults, List.filterMap_cons] at h
    cases hlk : List.lookup kv.1 shape with
    | none =>
      simp only [hlk] at h
      rw [recKeys_cons]
      exact List.mem_cons_of_mem _ (ih (by simpa [declaredResults] using h))
    | some p =>
      simp only [hlk] at h
      cases hp : p kv.2 (childPath path kv.1) with
      | ok r =>
        simp only [hp] at h
        rw [recKeys_cons] at h ⊢
        rcases List.mem_cons.1 h with h1 | h1
        · exact h1 ▸ List.mem_cons_self _ _
        · exact List.mem_cons_of_mem _ (ih (by simpa [declaredResults] using h1))
      | error e =>
        simp only [hp] at h
        rw [recKeys_cons]
        exact List.mem_cons_of_mem _ (ih (by simpa [declaredResults] using h))

/-- The structured branch of the object value-transform, described by one
equation: the parse succeeds with the full per-key record exactly when no
aggregated message was produced, and otherwise throws a single
`ParsingError` joining every collected message with newlines. -/
theorem objectVT_structured_eq (shape : Shape) (opts : ObjOptions) (fuel : Nat)
    (v : Value) (path : Option String)
    (hst : (typeofObject v && !isNullV v && !isBufferV v) = true)
    (hndE : (recKeys (jsEntries v)).Nodup)
    (hndS : (recKeys shape).Nodup)
    (hIg : opts.ignoreUnknown.getD false = true ∨ ∀ kv ∈ jsEntries v, kv.1 ∈ recKeys shape) :
    objectVT shape opts (fuel + 1) v path =
      if (objectFailMsgs shape path v).isEmpty then .ok (.obj (objectSuccess shape path v))
      else .error (.parsing (String.intercalate "\n" (objectFailMsgs shape path v))) := by
  unfold objectVT
  rw [if_pos hst]
  rw [processEntries_eq shape opts path (jsEntries v) [] [] hIg hndE (by simp [recKeys])]
  simp only [List.nil_append]
  rw [processMissing_eq path (recKeys (jsEntries v)) shape
    (declaredResults shape path (jsEntries v)) (declaredFailMsgs shape path (jsEntries v))
    (fun kp _ hnv hmem => hnv (keys_declaredResults_sub shape path (jsEntries v) hmem)) hndS]
  rfl

/-! File accumulator lemmas. -/

theorem RAMFile_appendSync_size (f : RAMFile) (b : List Nat) :
    (f.appendSync b).size = f.size + b.length := rfl

theorem RAMFile_appendSync_data (f : RAMFile) (b : List Nat) :
    (f.appendSync b).data = f.data ++ b := rfl

theorem TempFile_append_size (t : TempFile) (b : List Nat) (fs : FS) :
    (t.append b fs).1.size = t.size + b.length := rfl

theorem fileChunkStep_ram_size (opts : SpoolOptions) (fp : String) (f : RAMFile) (fs : FS)
    (c : List Nat) : (fileChunkStep opts fp (.ram f, fs) c).1.size = f.size + c.length := by
  simp only [fileChunkStep]
  split
  · simp [RAMFile_appendSync_size, FileVar.size]
  · simp [RAMFile_appendSync_size, FileVar.size]

theorem fileChunkStep_temp (opts : SpoolOptions) (fp : String) (t : TempFile) (fs : FS)
    (c : List Nat) :
    fileChunkStep opts fp (.temp t, fs) c =
      (.temp ⟨t.path, t.size + c.length⟩, fsAppend fs t.path c) := rfl

theorem fileChunkStep_size (opts : SpoolOptions) (fp : String) (st : FileVar × FS)
    (c : List Nat) : (fileChunkStep opts fp st c).1.size = st.1.size + c.length := by
  obtain ⟨fv, fs⟩ := st
  cases fv with
  | ram f => exact fileChunkStep_ram_size opts fp f fs c
  | temp f =>
    rw [fileChunkStep_temp]
    rfl

theorem fileAccum_size (opts : SpoolOptions) (names : Nat → String) :
    ∀ (chunks : List (List Nat)) (i : Nat) (st : FileVar × FS),
    (fileAccum opts names i st chunks).1.size = st.1.size + (chunks.map List.length).sum := by
  intro chunks
  induction chunks with
  | nil =>
    intro i st
    simp [fileAccum]
  | cons c cs ih =>
    intro i st
    unfold fileAccum
    rw [ih (i + 1) (fileChunkStep opts (names i) st c), fileChunkStep_size]
    simp [Nat.add_assoc]

theorem fileAccum_ram_small (opts : SpoolOptions) (names : Nat → String) :
    ∀ (chunks : List (List Nat)) (i : Nat) (f : RAMFile) (fs : FS),
    f.size + (chunks.map List.length).sum ≤ opts.threshold →
    fileAccum opts names i (.ram f, fs) chunks =
      (.ram ⟨f.size + (chunks.map List.length).sum, f.data ++ chunks.flatten⟩, fs) := by
  intro chunks
  induction chunks with
  | nil =>
    intro i f fs _
    simp [fileAccum]
  | cons c cs ih =>
    intro i f fs hle
    have hstep : fileChunkStep opts (names i) (.ram f, fs) c = (.ram (f.appendSync c), fs) := by
      simp only [fileChunkStep]
      rw [if_neg]
      rw [RAMFile_appendSync_size]
      simp only [List.map_cons, List.sum_cons] at hle
      omega
    unfold fileAccum
    rw [hstep, ih (i + 1) (f.appendSync c) fs (by
      rw [RAMFile_appendSync_size]
      simp only [List.map_cons, List.sum_cons] at hle
      omega)]
    simp only [RAMFile_appendSync_size, RAMFile_appendSync_data, List.map_cons, List.sum_cons,
      List.flatten_cons, List.append_assoc, Nat.add_assoc]

theorem fileChunkStep_upgrade (opts : SpoolOptions) (fp : String) (f : RAMFile) (fs : FS)
    (c : List Nat) (hgt : f.size + c.length > opts.threshold) :
    fileChunkStep opts fp (.ram f, fs) c =
      (.temp ⟨fp, f.size + c.length⟩, fsWrite fs fp (f.data ++ c)) := by
  simp only [fileChunkStep]
  rw [if_pos (by rw [RAMFile_appendSync_size]; omega)]
  rfl

theorem fileAccum_temp_stays (opts : SpoolOptions) (names : Nat → String) :
    ∀ (chunks : List (List Nat)) (i : Nat) (t : TempFile) (fs : FS),
    ∃ t2 fs2, fileAccum opts names i (.temp t, fs) chunks = (.temp t2, fs2) ∧ t2.path = t.path := by
  intro chunks
  induction chunks with
  | nil =>
    intro i t fs
    exact ⟨t, fs, rfl, rfl⟩
  | cons c cs ih =>
    intro i t fs
    unfold fileAccum
    rw [fileChunkStep_temp]
    obtain ⟨t2, fs2, heq, hpath⟩ := ih (i + 1) ⟨t.path, t.size + c.length⟩ (fsAppend fs t.path c)
    exact ⟨t2, fs2, heq, hpath⟩

/-- C4: during stream accumulation a file starts RAM-resident; totals up to
the threshold (`maxForRAM`, default 1024*1024) keep it RAM-resident with all
bytes in memory; the first append pushing the running total strictly beyond
the threshold while RAM-resident writes the accumulated bytes to the freshly
generated path and replaces the reference by a disk-spooled variant of the
same size; and once disk-spooled the accumulator never changes variant or
path again. -/
theorem parsium_C4 :
    (∀ (opts : SpoolOptions) (names : Nat → String) (fs0 : FS),
      fileAccumRun opts names fs0 [] = (.ram ⟨0, []⟩, fs0)) ∧
    (∀ (opts : SpoolOptions) (names : Nat → String) (fs0 : FS) (chunks : List (List Nat)),
      (chunks.map List.length).sum ≤ opts.threshold →
      fileAccumRun opts names fs0 chunks =
        (.ram ⟨(chunks.map List.length).sum, chunks.flatten⟩, fs0)) ∧
    (∀ (opts : SpoolOptions) (fp : String) (f : RAMFile) (fs : FS) (c : List Nat),
      f.size + c.length > opts.threshold →
      fileChunkStep opts fp (.ram f, fs) c =
        (.temp ⟨fp, f.size + c.length⟩, fsWrite fs fp (f.data ++ c))) ∧
    (∀ (opts : SpoolOptions) (names : Nat → String) (chunks : List (List Nat)) (i : Nat)
      (t : TempFile) (fs : FS),
      ∃ t2 fs2, fileAccum opts names i (.temp t, fs) chunks = (.temp t2, fs2) ∧
        t2.path = t.path) ∧
    SpoolOptions.threshold {} = 1024 * 1024 := by
  refine ⟨fun opts names fs0 => rfl, ?_, ?_, ?_, rfl⟩
  · intro opts names fs0 chunks hle
    have h := fileAccum_ram_small opts names chunks 0 {} fs0 (by simpa using hle)
    simpa [fileAccumRun] using h
  · intro opts fp f fs c hgt
    exact fileChunkStep_upgrade opts fp f fs c hgt
  · intro opts names chunks i t fs
    exact fileAccum_temp_stays opts names chunks i t fs

/-- C4 witness: with threshold 4, two chunks totalling 4 bytes stay
RAM-resident; a fifth byte then upgrades to the disk-spooled variant whose
backing file holds all five bytes. -/
theorem parsium_C4_witness :
    fileAccumRun ⟨some 4, none⟩ (fun i => "tmp" ++ toString i) [] [[1, 2], [3, 4]] =
      (.ram ⟨4, [1, 2, 3, 4]⟩, []) ∧
    fileChunkStep ⟨some 4, none⟩ "tmp0" (.ram ⟨4, [1, 2, 3, 4]⟩, []) [5] =
      (.temp ⟨"tmp0", 5⟩, fsWrite [] "tmp0" [1, 2, 3, 4, 5]) := by
  constructor
  · exact parsium_C4.2.1 ⟨some 4, none⟩ (fun i => "tmp" ++ toString i) [] [[1, 2], [3, 4]]
      (by decide)
  · exact parsium_C4.2.2.1 ⟨some 4, none⟩ "tmp0" ⟨4, [1, 2, 3, 4]⟩ [] [5] (by decide)

/-- C7: for both file variants the `size` field tracks exactly the bytes
appended: every `append`/`appendSync` grows `size` by the buffer length, the
disk-spooled variant created on upgrade carries the same size as the RAM
variant it replaces, and after any accumulation the final size equals the
total length of all appended chunks. -/
theorem parsium_C7 :
    (∀ (f : RAMFile) (b : List Nat), (f.appendSync b).size = f.size + b.length) ∧
    (∀ (f : RAMFile) (b : List Nat), (f.append b).size = f.size + b.length) ∧
    (∀ (t : TempFile) (b : List Nat) (fs : FS), (t.appendSync b fs).1.size = t.size + b.length) ∧
    (∀ (t : TempFile) (b : List Nat) (fs : FS), (t.append b fs).1.size = t.size + b.length) ∧
    (∀ (opts : SpoolOptions) (fp : String) (f : RAMFile) (fs : FS) (c : List Nat),
      (f.appendSync c).size > opts.threshold →
      (fileChunkStep opts fp (.ram f, fs) c).1 = .temp ⟨fp, (f.appendSync c).size⟩) ∧
    (∀ (opts : SpoolOptions) (names : Nat → String) (fs0 : FS) (chunks : List (List Nat)),
      (fileAccumRun opts names fs0 chunks).1.size = (chunks.map List.length).sum) := by
  refine ⟨fun f b => rfl, fun f b => rfl, fun t b fs => rfl, fun t b fs => rfl, ?_, ?_⟩
  · intro opts fp f fs c hgt
    rw [fileChunkStep_upgrade opts fp f fs c (by rw [RAMFile_appendSync_size] at hgt; exact hgt)]
    rfl
  · intro opts names fs0 chunks
    rw [fileAccumRun, fileAccum_size]
    simp [FileVar.size]

/-- C7 witness: appending one byte past a threshold of 2 upgrades the
variant and the new disk-spooled file reports size 3, the bytes appended so
far. -/
theorem parsium_C7_witness :
    (fileChunkStep ⟨some 2, none⟩ "sp" (.ram ⟨2, [7, 8]⟩, []) [9]).1 = .temp ⟨"sp", 3⟩ ∧
    (RAMFile.appendSync ⟨2, [7, 8]⟩ [9]).size = 3 := by
  constructor
  · exact parsium_C7.2.2.2.2.1 ⟨some 2, none⟩ "sp" ⟨2, [7, 8]⟩ [] [9] (by decide)
  · exact parsium_C7.1 ⟨2, [7, 8]⟩ [9]

/-! Field-map lemmas. -/

theorem mem_of_any_key {α : Type} {m : List (String × α)} {k : String}
    (h : m.any (fun kv => kv.1 = k) = true) : k ∈ recKeys m := by
  rw [List.any_eq_true] at h
  obtain ⟨kv, hkv, he⟩ := h
  exact List.mem_map.2 ⟨kv, hkv, by simpa using he⟩

theorem lookup_replace_self {α : Type} (m : List (String × α)) (k : String) (v : α)
    (hk : k ∈ recKeys m) :
    List.lookup k (m.map (fun kv => if kv.1 = k then (k, v) else kv)) = some v := by
  induction m with
  | nil => simp [recKeys] at hk
  | cons kv rest ih =>
    by_cases h : kv.1 = k
    · simp only [List.map_cons, if_pos h]
      exact lookup_cons_self k v _
    · simp only [List.map_cons, if_neg h]
      obtain ⟨k1, v1⟩ := kv
      rw [lookup_cons_ne (fun he => h (by simpa using he.symm))]
      refine ih ?_
      rcases (by simpa [recKeys] using hk : k = k1 ∨ k ∈ recKeys rest) with h1 | h1
      · exact absurd (by simpa using h1.symm) h
      · exact h1

theorem lookup_append_single_self {α : Type} (m : List (String × α)) (k : String) (v : α)
    (hk : k ∉ recKeys m) : List.lookup k (m ++ [(k, v)]) = some v := by
  induction m with
  | nil => simp [List.lookup]
  | cons kv rest ih =>
    obtain ⟨k1, v1⟩ := kv
    have hne : k ≠ k1 := fun he => hk (by simp [recKeys, he])
    rw [List.cons_append, lookup_cons_ne hne]
    exact ih (fun hmem => hk (by rw [recKeys_cons]; exact List.mem_cons_of_mem _ hmem))

theorem lookup_replace_ne {α : Type} (m : List (String × α)) {k k0 : String} (hne : k ≠ k0)
    (v : α) :
    List.lookup k (m.map (fun kv => if kv.1 = k0 then (k0, v) else kv)) = List.lookup k m := by
  induction m with
  | nil => simp
  | cons kv rest ih =>
    obtain ⟨k1, v1⟩ := kv
    by_cases h : k1 = k0
    · simp only [List.map_cons, if_pos (by simpa using h)]
      rw [lookup_cons_ne hne, lookup_cons_ne (h ▸ hne), ih]
    · simp only [List.map_cons, if_neg (by simpa using h)]
      by_cases h2 : k = k1
      · rw [h2, lookup_cons_self, lookup_cons_self]
      · rw [lookup_cons_ne h2, lookup_cons_ne h2, ih]

theorem lookup_append_single_ne {α : Type} (m : List (String × α)) {k k0 : String}
    (hne : k ≠ k0) (v : α) : List.lookup k (m ++ [(k0, v)]) = List.lookup k m := by
  induction m with
  | nil =>
    rw [List.nil_append, lookup_cons_ne hne]
  | cons kv rest ih =>
    obtain ⟨k1, v1⟩ := kv
    by_cases h2 : k = k1
    · rw [h2, List.cons_append, lookup_cons_self, lookup_cons_self]
    · rw [List.cons_append, lookup_cons_ne h2, lookup_cons_ne h2, ih]

theorem lookup_recordSet_self {α : Type} (m : List (String × α)) (k : String) (v : α) :
    List.lookup k (recordSet m k v) = some v := by
  unfold recordSet
  split
  · rename_i hany
    exact lookup_replace_self m k v (mem_of_any_key hany)
  · rename_i hany
    refine lookup_append_single_self m k v (fun hmem => hany ?_)
    exact any_key_eq_true hmem

theorem lookup_recordSet_ne {α : Type} (m : List (String × α)) {k k0 : String} (hne : k ≠ k0)
    (v : α) : List.lookup k (recordSet m k0 v) = List.lookup k m := by
  unfold recordSet
  split
  · exact lookup_replace_ne m hne v
  · exact lookup_append_single_ne m hne v

theorem lookup_fieldsPut_ne (m : List (String × FieldVal)) {k k0 : String} (hne : k ≠ k0)
    (v : FieldEntry) : List.lookup k (fieldsPut m k0 v) = List.lookup k m := by
  unfold fieldsPut
  cases List.lookup k0 m with
  | none => exact lookup_recordSet_ne m hne _
  | some fv =>
    cases fv with
    | single x => exact lookup_recordSet_ne m hne _
    | many xs => exact lookup_recordSet_ne m hne _

theorem fieldRepr_snoc (seen : List FieldEntry) (m : List (String × FieldVal)) (k : String)
    (v : FieldEntry) (h : List.lookup k m = fieldRepr seen) :
    List.lookup k (fieldsPut m k v) = fieldRepr (seen ++ [v]) := by
  unfold fieldsPut
  cases seen with
  | nil =>
    rw [h]
    simp only [fieldRepr]
    exact lookup_recordSet_self m k (.single v)
  | cons x t =>
    cases t with
    | nil =>
      rw [h]
      simp only [fieldRepr]
      exact lookup_recordSet_self m k (.many [x, v])
    | cons y t2 =>
      rw [h]
      simp only [fieldRepr]
      exact lookup_recordSet_self m k (.many (x :: y :: t2 ++ [v]))

theorem accumFields_lookup_aux :
    ∀ (events : List (String × FieldEntry)) (m : List (String × FieldVal)) (k : String)
      (seen : List FieldEntry),
    List.lookup k m = fieldRepr seen →
    List.lookup k (events.foldl (fun m2 kv => fieldsPut m2 kv.1 kv.2) m) =
      fieldRepr (seen ++ occurrencesOf k events) := by
  intro events
  induction events with
  | nil =>
    intro m k seen h
    simpa [occurrencesOf] using h
  | cons kv rest ih =>
    intro m k seen h
    obtain ⟨k0, v⟩ := kv
    by_cases hk : k0 = k
    · subst hk
      rw [List.foldl_cons]
      have h2 := fieldRepr_snoc seen m k0 v h
      rw [ih (fieldsPut m k0 v) k0 (seen ++ [v]) h2]
      simp [occurrencesOf]
    · rw [List.foldl_cons]
      have h2 : List.lookup k (fieldsPut m k0 v) = fieldRepr seen := by
        rw [lookup_fieldsPut_ne m (fun he => hk he.symm) v]
        exact h
      rw [ih (fieldsPut m k0 v) k seen h2]
      simp [occurrencesOf, hk]

/-- C8: after any event sequence, a field name maps to nothing when it never
occurred, to the scalar after one occurrence, and to the array of all its
delivered values in arrival order after two or more occurrences — the same
rule covering text-field events and completed-file events. -/
theorem parsium_C8 (events : List (String × FieldEntry)) (k : String) :
    List.lookup k (accumFields events) = fieldRepr (occurrencesOf k events) := by
  have h := accumFields_lookup_aux events [] k [] (by simp [List.lookup, fieldRepr])
  simpa [accumFields] using h

/-- C8 witness: a name delivered a string, a file, then another string maps
to the three values in arrival order; a name seen once stays scalar. -/
theorem parsium_C8_witness :
    List.lookup "a" (accumFields
      [("a", .str "x"), ("b", .str "solo"), ("a", .file (.ram ⟨1, [7]⟩)), ("a", .str "y")]) =
      some (.many [.str "x", .file (.ram ⟨1, [7]⟩), .str "y"]) ∧
    List.lookup "b" (accumFields
      [("a", .str "x"), ("b", .str "solo"), ("a", .file (.ram ⟨1, [7]⟩)), ("a", .str "y")]) =
      some (.single (.str "solo")) := by
  constructor
  · have h := parsium_C8
      [("a", .str "x"), ("b", .str "solo"), ("a", .file (.ram ⟨1, [7]⟩)), ("a", .str "y")] "a"
    rw [h]
    rfl
  · have h := parsium_C8
      [("a", .str "x"), ("b", .str "solo"), ("a", .file (.ram ⟨1, [7]⟩)), ("a", .str "y")] "b"
    rw [h]
    rfl

/-! Array combinator lemmas. -/

theorem arrayVT_nonarr (p : RawParser) (opts : ArrOptions) (n : Nat) (v : Value)
    (path : Option String) (hv : ∀ xs, v ≠ .arr xs) :
    arrayVT p opts (n + 1) v path =
      match arrayVT p opts n (.arr [v]) path with
      | .ok r => .ok r
      | .error _ => .error (.parsing ("[" ++ pathD path ++ "] should be an array\x7d")) := by
  cases v with
  | arr xs => exact absurd rfl (hv xs)
  | undef => rfl
  | null => rfl
  | bool b => rfl
  | num m => rfl
  | str st => rfl
  | buf bs => rfl
  | obj es => rfl

theorem arrayVT_singleton_ok (p : RawParser) (path : Option String) (r : Value) (n : Nat)
    (v : Value) (hp : p v (elemPath path 0) = .ok r) :
    arrayVT p {} (n + 1) (.arr [v]) path = .ok (.arr [r]) := by
  simp only [arrayVT]
  rw [if_neg (by simp)]
  rw [if_neg (by simp)]
  have he : arrayElems p path 0 [v] = ([r], []) := by
    simp only [arrayElems, hp]
  simp [he]

/-- C2: a non-array value on which the element parser succeeds is coerced to
the one-element array of the parsed value; when elements of an array input
fail with `ParsingError`s the combinator first retries on the wrapped
single-element array `[value]` and only throws the newline-joined element
errors if that retry also throws; `array(int())(5) = [5]`; and
`array(int(), max 2)` on a three-element array throws the length error. -/
theorem parsium_C2 :
    (∀ (p : RawParser) (v : Value) (path : Option String) (r : Value) (n : Nat),
      (∀ xs, v ≠ .arr xs) →
      p v (elemPath path 0) = .ok r →
      arrayVT p {} (n + 2) v path = .ok (.arr [r])) ∧
    (∀ (p : RawParser) (opts : ArrOptions) (xs : List Value) (path : Option String) (n : Nat),
      ¬(opts.min.isSome ∧ xs.length < opts.min.getD 0) →
      ¬(opts.max.isSome ∧ xs.length > opts.max.getD 0) →
      (arrayElems p path 0 xs).2 ≠ [] →
      arrayVT p opts (n + 1) (.arr xs) path =
        match arrayVT p opts n (.arr [.arr xs]) path with
        | .ok r => .ok r
        | .error _ => .error (.parsing (String.intercalate "\n" (arrayElems p path 0 xs).2))) ∧
    arrayVT (intParser {}) {} 2 (.num 5) none = .ok (.arr [.num 5]) ∧
    arrayVT (intParser {}) ⟨none, some 2⟩ 1 (.arr [.num 1, .num 2, .num 3]) none =
      .error (.parsing "[length()] is larger than the allowed maximum (2)") := by
  refine ⟨?_, ?_, by rfl, by rfl⟩
  · intro p v path r n hv hp
    rw [arrayVT_nonarr p {} (n + 1) v path hv]
    rw [arrayVT_singleton_ok p path r n v hp]
  · intro p opts xs path n hmin hmax herr
    simp only [arrayVT]
    rw [if_neg hmin, if_neg hmax]
    have hne : (arrayElems p path 0 xs).2.isEmpty = false := by
      rcases h : (arrayElems p path 0 xs).2 with _ | ⟨a, t⟩
      · exact absurd h herr
      · rfl
    simp [hne]

/-- C2 witness: a scalar string-parser success coerces to a one-element
array, and a failing element triggers the wrap-and-retry whose failure
yields the joined per-element error. -/
theorem parsium_C2_witness :
    arrayVT (stringParser {}) {} 2 (.num 7) none = .ok (.arr [.str "7"]) ∧
    arrayVT (intParser {}) {} 1 (.arr [.num 1, .str "x"]) none =
      .error (.parsing "[undefined[1]] should be an integer") := by
  constructor
  · exact parsium_C2.1 (stringParser {}) (.num 7) none (.str "7") 0
      (fun xs h => by cases h) (by rfl)
  · have h := parsium_C2.2.1 (intParser {}) {} [.num 1, .str "x"] none 0
      (by simp) (by simp) (by decide)
    exact h.trans (by rfl)

/-- C10: a non-`ParsingError` exception from a declared key's parser inside
`object`, or from an element's parser inside `array`, is swallowed: it is
neither aggregated nor propagated, the key/element is simply omitted, the
composite still succeeds without it, and for `array` the swallowed element
alone triggers no wrap-and-retry (the partial result is returned directly). -/
theorem parsium_C10 :
    (∀ (k1 k2 : String) (p q : RawParser) (v w r : Value) (e : String) (path : Option String)
      (f : Nat), k1 ≠ k2 →
      p v (childPath path k1) = .error (.other e) →
      q w (childPath path k2) = .ok r →
      objectVT [(k1, p), (k2, q)] defaultObjOptions (f + 1) (.obj [(k1, v), (k2, w)]) path =
        .ok (.obj [(k2, r)])) ∧
    (∀ (p : RawParser) (v0 v1 r : Value) (e : String) (path : Option String) (n : Nat),
      p v0 (elemPath path 0) = .error (.other e) →
      p v1 (elemPath path 1) = .ok r →
      arrayVT p {} (n + 1) (.arr [v0, v1]) path = .ok (.arr [r])) := by
  constructor
  · intro k1 k2 p q v w r e path f hne hp hq
    have hl1 : List.lookup k1 [(k1, p), (k2, q)] = some p := lookup_cons_self k1 p _
    have hl2 : List.lookup k2 [(k1, p), (k2, q)] = some q := by
      rw [lookup_cons_ne (fun he => hne he.symm), lookup_cons_self]
    rw [objectVT_structured_eq [(k1, p), (k2, q)] defaultObjOptions f (.obj [(k1, v), (k2, w)])
      path rfl (by simp [jsEntries, recKeys, hne]) (by simp [recKeys, hne]) (Or.inl rfl)]
    have hmsgs : objectFailMsgs [(k1, p), (k2, q)] path (.obj [(k1, v), (k2, w)]) = [] := by
      simp only [objectFailMsgs, declaredFailMsgs, missingFailMsgs, jsEntries, recKeys,
        List.filterMap_cons, List.filterMap_nil, hl1, hl2, hp, hq, List.map_cons, List.map_nil]
      simp
    have hsucc : objectSuccess [(k1, p), (k2, q)] path (.obj [(k1, v), (k2, w)]) = [(k2, r)] := by
      simp only [objectSuccess, declaredResults, missingResults, jsEntries, recKeys,
        List.filterMap_cons, List.filterMap_nil, hl1, hl2, hp, hq, List.map_cons, List.map_nil]
      simp
    rw [hmsgs, hsucc]
    rfl
  · intro p v0 v1 r e path n hp0 hp1
    simp only [arrayVT]
    rw [if_neg (by simp), if_neg (by simp)]
    have he : arrayElems p path 0 [v0, v1] = ([r], []) := by
      simp only [arrayElems, hp0, hp1]
    simp [he]

/-- C10 witness: a parser throwing a generic error on the first key/element
is dropped, and both composites succeed with the remaining entry only. -/
theorem parsium_C10_witness :
    objectVT [("a", fun _ _ => .error (.other "boom")), ("b", intParser {})] defaultObjOptions 1
      (.obj [("a", .num 1), ("b", .num 2)]) none = .ok (.obj [("b", .num 2)]) ∧
    arrayVT (fun v pa => match v with | .null => .error (.other "boom") | w => intParser {} w pa)
      {} 1 (.arr [.null, .num 3]) none = .ok (.arr [.num 3]) := by
  constructor
  · exact parsium_C10.1 "a" "b" (fun _ _ => .error (.other "boom")) (intParser {})
      (.num 1) (.num 2) (.num 2) "boom" none 0 (by decide) rfl rfl
  · exact parsium_C10.2
      (fun v pa => match v with | .null => .error (.other "boom") | w => intParser {} w pa)
      .null (.num 3) (.num 3) "boom" none 0 rfl rfl

/-! Coverage of the success record. -/

theorem lookup_mem {α : Type} {m : List (String × α)} {k : String} {b : α}
    (h : List.lookup k m = some b) : (k, b) ∈ m := by
  induction m with
  | nil => cases h
  | cons kv rest ih =>
    obtain ⟨k1, v1⟩ := kv
    by_cases he : k = k1
    · subst he
      rw [lookup_cons_self] at h
      cases h
      exact List.mem_cons_self _ _
    · rw [lookup_cons_ne he] at h
      exact List.mem_cons_of_mem _ (ih h)

theorem objectSuccess_covers (shape : Shape) (path : Option String) (v : Value)
    (hNO : NoOtherFailShape shape)
    (hmsgs : objectFailMsgs shape path v = []) :
    ∀ k ∈ recKeys shape, k ∈ recKeys (objectSuccess shape path v) := by
  intro k hk
  have hpair := List.append_eq_nil.1 hmsgs
  have hdnil := hpair.1
  have hmnil := hpair.2
  rw [declaredFailMsgs, List.filterMap_eq_nil_iff] at hdnil
  rw [missingFailMsgs, List.filterMap_eq_nil_iff] at hmnil
  by_cases hin : k ∈ recKeys (jsEntries v)
  · obtain ⟨kv, hkv, hkeq⟩ := List.mem_map.1 hin
    have hsome : (List.lookup k shape).isSome = true := (lookup_isSome_iff k shape).2 hk
    obtain ⟨p2, hlk⟩ := Option.isSome_iff_exists.1 hsome
    rw [← hkeq] at hlk
    cases hp : p2 kv.2 (childPath path kv.1) with
    | ok r =>
      rw [objectSuccess, recKeys_append]
      refine List.mem_append_left _ ?_
      refine List.mem_map.2 ⟨(kv.1, r), ?_, hkeq⟩
      refine List.mem_filterMap.2 ⟨kv, hkv, ?_⟩
      simp only [hlk, hp]
    | error e =>
      cases e with
      | parsing m =>
        have hnone := hdnil kv hkv
        simp only [hlk, hp] at hnone
        cases hnone
      | other m =>
        have hmem : (kv.1, p2) ∈ shape := lookup_mem hlk
        exact absurd hp (hNO (kv.1, p2) hmem kv.2 (childPath path kv.1) m)
  · obtain ⟨kp, hkp, hkeq⟩ := List.mem_map.1 hk
    have hnotmem : kp.1 ∉ recKeys (jsEntries v) := by
      rw [hkeq]
      exact hin
    cases hp : kp.2 .undef (childPath path kp.1) with
    | ok r =>
      rw [objectSuccess, recKeys_append]
      refine List.mem_append_right _ ?_
      refine List.mem_map.2 ⟨(kp.1, r), ?_, hkeq⟩
      refine List.mem_filterMap.2 ⟨kp, hkp, ?_⟩
      rw [if_neg (by simpa using hnotmem), hp]
    | error e =>
      have hnone := hmnil kp hkp
      rw [if_neg (by simpa using hnotmem), hp] at hnone
      cases hnone

/-- C1: for every shape and structured (non-null, non-Buffer object) input
with well-formed keys, the object value-transform visits every key: it
equals the single-pass description that collects the message of every key
whose parser throws a `ParsingError` (missing required keys included),
throwing exactly one `ParsingError` joining them with newlines when any
exist, and returning the assembled record otherwise; when no key fails (and
no parser throws a foreign exception) that record covers every declared
key. -/
theorem parsium_C1 (shape : Shape) (v : Value) (path : Option String) (f : Nat)
    (h1 : typeofObject v = true) (h2 : isNullV v = false) (h3 : isBufferV v = false)
    (hndE : (recKeys (jsEntries v)).Nodup) (hndS : (recKeys shape).Nodup) :
    (objectVT shape defaultObjOptions (f + 1) v path =
      if (objectFailMsgs shape path v).isEmpty then .ok (.obj (objectSuccess shape path v))
      else .error (.parsing (String.intercalate "\n" (objectFailMsgs shape path v)))) ∧
    (NoOtherFailShape shape → objectFailMsgs shape path v = [] →
      ∀ k ∈ recKeys shape, k ∈ recKeys (objectSuccess shape path v)) := by
  constructor
  · exact objectVT_structured_eq shape defaultObjOptions f v path
      (by rw [h1, h2, h3]; rfl) hndE hndS (Or.inl rfl)
  · intro hNO hmsgs
    exact objectSuccess_covers shape path v hNO hmsgs

/-- C1 witness: the spec example, parsing both invalid keys of
`{a: "x", b: {}}` against `{a: int(), b: string()}` and aggregating both
tagged messages into one error. -/
theorem parsium_C1_witness :
    objectVT [("a", intParser {}), ("b", stringParser {})] defaultObjOptions 1
      (.obj [("a", .str "x"), ("b", .obj [])]) none =
      .error (.parsing "[.a] should be an integer\n[.b] cannot be converted to a string") := by
  have h := (parsium_C1 [("a", intParser {}), ("b", stringParser {})]
    (.obj [("a", .str "x"), ("b", .obj [])]) none 0 rfl rfl rfl (by decide) (by decide)).1
  exact h.trans (by rfl)

/-! Unknown-key behaviour of the object combinator. -/

theorem processEntries_unknown_throw (shape : Shape) (opts : ObjOptions) (path : Option String)
    (k : String) (v : Value) (post : List (String × Value))
    (hig : opts.ignoreUnknown.getD false = false) (hlk : List.lookup k shape = none) :
    ∀ (pre : List (String × Value)) (result : List (String × Value)) (errs : List String),
    (∀ kv ∈ pre, (List.lookup kv.1 shape).isSome = true) →
    processEntries shape opts path (pre ++ (k, v) :: post) result errs =
      .error (.parsing ("[" ++ pathD path ++ "." ++ k ++ "] is not allowed")) := by
  intro pre
  induction pre with
  | nil =>
    intro result errs _
    rw [List.nil_append]
    simp only [processEntries, hlk, hig, Bool.false_eq_true, if_false]
  | cons kv rest ih =>
    intro result errs hdecl
    obtain ⟨k1, v1⟩ := kv
    have hsome := hdecl (k1, v1) (List.mem_cons_self _ _)
    obtain ⟨p1, hlk1⟩ := Option.isSome_iff_exists.1 hsome
    have hrest : ∀ kv ∈ rest, (List.lookup kv.1 shape).isSome = true :=
      fun kv hkv => hdecl kv (List.mem_cons_of_mem _ hkv)
    rw [List.cons_append]
    cases hp : p1 v1 (childPath path k1) with
    | ok r =>
      have hstep : processEntries shape opts path ((k1, v1) :: (rest ++ (k, v) :: post))
          result errs =
          processEntries shape opts path (rest ++ (k, v) :: post) (recordSet result k1 r) errs := by
        simp only [processEntries, hlk1, hp]
      rw [hstep]
      exact ih (recordSet result k1 r) errs hrest
    | error e =>
      cases e with
      | parsing m =>
        have hstep : processEntries shape opts path ((k1, v1) :: (rest ++ (k, v) :: post))
            result errs =
            processEntries shape opts path (rest ++ (k, v) :: post) result (errs ++ [m]) := by
          simp only [processEntries, hlk1, hp]
        rw [hstep]
        exact ih result (errs ++ [m]) hrest
      | other m =>
        have hstep : processEntries shape opts path ((k1, v1) :: (rest ++ (k, v) :: post))
            result errs =
            processEntries shape opts path (rest ++ (k, v) :: post) result errs := by
          simp only [processEntries, hlk1, hp]
        rw [hstep]
        exact ih result errs hrest

theorem missingFailMsgs_cons_irrelevant (shape : Shape) (path : Option String)
    (k : String) (valueKeys : List String) (hk : k ∉ recKeys shape) :
    missingFailMsgs shape path (k :: valueKeys) = missingFailMsgs shape path valueKeys := by
  unfold missingFailMsgs
  apply List.filterMap_congr
  intro kp hkp
  have hne : kp.1 ≠ k := by
    intro he
    exact hk (he ▸ List.mem_map.2 ⟨kp, hkp, rfl⟩)
  simp [List.contains_cons, hne, Ne.symm hne]

theorem missingResults_cons_irrelevant (shape : Shape) (path : Option String)
    (k : String) (valueKeys : List String) (hk : k ∉ recKeys shape) :
    missingResults shape path (k :: valueKeys) = missingResults shape path valueKeys := by
  unfold missingResults
  apply List.filterMap_congr
  intro kp hkp
  have hne : kp.1 ≠ k := by
    intro he
    exact hk (he ▸ List.mem_map.2 ⟨kp, hkp, rfl⟩)
  simp [List.contains_cons, hne, Ne.symm hne]

/-- C6 counterexample: with `ignoreUnknown` disabled, an object whose first
key is unknown and whose later keys include another unknown key and an
invalid declared key throws a single error naming only the first unknown
key — nothing is aggregated and the remaining keys are never reported. -/
theorem parsium_C6_cex :
    objectVT [("a", intParser {})] ⟨some false⟩ 1
      (.obj [("u", .num 1), ("a", .str "x"), ("w", .num 2)]) none =
      .error (.parsing "[.u] is not allowed") := by
  rfl

/-- C6 as amended: disabling `ignoreUnknown` makes the parse throw
immediately at the first unknown input key, as a single `ParsingError`
`[path.key] is not allowed` (whatever failures or unknown keys follow);
with it enabled an unknown key contributes neither a message nor a result
entry, so the parse of the remaining entries is unchanged. -/
theorem parsium_C6 :
    (∀ (shape : Shape) (opts : ObjOptions) (path : Option String) (f : Nat)
      (pre : List (String × Value)) (k : String) (v : Value) (post : List (String × Value)),
      opts.ignoreUnknown.getD false = false →
      (∀ kv ∈ pre, (List.lookup kv.1 shape).isSome = true) →
      List.lookup k shape = none →
      objectVT shape opts (f + 1) (.obj (pre ++ (k, v) :: post)) path =
        .error (.parsing ("[" ++ pathD path ++ "." ++ k ++ "] is not allowed"))) ∧
    (∀ (shape : Shape) (path : Option String) (f : Nat)
      (k : String) (v : Value) (rest : List (String × Value)),
      List.lookup k shape = none →
      (recKeys ((k, v) :: rest)).Nodup →
      (recKeys shape).Nodup →
      objectVT shape defaultObjOptions (f + 1) (.obj ((k, v) :: rest)) path =
        objectVT shape defaultObjOptions (f + 1) (.obj rest) path) := by
  constructor
  · intro shape opts path f pre k v post hig hdecl hlk
    have hpe := processEntries_unknown_throw shape opts path k v post hig hlk pre [] [] hdecl
    simp only [objectVT]
    rw [show jsEntries (.obj (pre ++ (k, v) :: post)) = pre ++ (k, v) :: post from rfl, hpe]
    rfl
  · intro shape path f k v rest hlk hndE hndS
    have hk : k ∉ recKeys shape := by
      intro hmem
      have := (lookup_isSome_iff k shape).2 hmem
      rw [hlk] at this
      cases this
    rw [recKeys_cons] at hndE
    have hndr : (recKeys rest).Nodup := (List.nodup_cons.1 hndE).2
    rw [objectVT_structured_eq shape defaultObjOptions f (.obj ((k, v) :: rest)) path rfl
      (by show (recKeys ((k, v) :: rest)).Nodup; rw [recKeys_cons]; exact hndE) hndS
      (Or.inl rfl)]
    rw [objectVT_structured_eq shape defaultObjOptions f (.obj rest) path rfl hndr hndS
      (Or.inl rfl)]
    have hfm : objectFailMsgs shape path (.obj ((k, v) :: rest)) =
        objectFailMsgs shape path (.obj rest) := by
      unfold objectFailMsgs
      rw [show jsEntries (.obj ((k, v) :: rest)) = (k, v) :: rest from rfl,
        show jsEntries (.obj rest) = rest from rfl]
      rw [declaredFailMsgs, List.filterMap_cons]
      simp only [hlk]
      rw [← declaredFailMsgs, recKeys_cons, missingFailMsgs_cons_irrelevant shape path _ _ hk]
    have hsc : objectSuccess shape path (.obj ((k, v) :: rest)) =
        objectSuccess shape path (.obj rest) := by
      unfold objectSuccess
      rw [show jsEntries (.obj ((k, v) :: rest)) = (k, v) :: rest from rfl,
        show jsEntries (.obj rest) = rest from rfl]
      rw [declaredResults, List.filterMap_cons]
      simp only [hlk]
      rw [← declaredResults, recKeys_cons, missingResults_cons_irrelevant shape path _ _ hk]
    rw [hfm, hsc]

/-- C6 witness: the abort fires on a concrete unknown key after a valid
declared key, and a parse with the unknown key removed gives the same
result as with it present under the default options. -/
theorem parsium_C6_witness :
    objectVT [("a", intParser {})] ⟨some false⟩ 1
      (.obj [("a", .num 3), ("u", .num 1), ("a", .str "x")]) none =
      .error (.parsing "[.u] is not allowed") ∧
    objectVT [("a", intParser {})] defaultObjOptions 1
      (.obj [("u", .null), ("a", .num 3)]) none =
      objectVT [("a", intParser {})] defaultObjOptions 1 (.obj [("a", .num 3)]) none := by
  constructor
  · exact parsium_C6.1 [("a", intParser {})] ⟨some false⟩ none 0 [("a", .num 3)] "u" (.num 1)
      [("a", .str "x")] rfl (by decide) rfl
  · exact parsium_C6.2 [("a", intParser {})] none 0 "u" .null [("a", .num 3)] rfl (by decide)
      (by decide)

/-- C5 counterexample: finalization with two collected sub-stream errors
rejects with the bare error array — not with one aggregated error object. -/
theorem parsium_C5_cex :
    busboyFinish [("a", intParser {})] defaultObjOptions 5
      [.other "io fail 1", .other "io fail 2"] [] none =
      .rejectedList [.other "io fail 1", .other "io fail 2"] ∧
    (busboyFinish [("a", intParser {})] defaultObjOptions 5
      [.other "io fail 1", .other "io fail 2"] [] none).isSingleError = false := by
  exact ⟨rfl, rfl⟩

/-- C5 as amended: the synchronous object transform does throw exactly one
`ParsingError` newline-joining every contributing tagged message, and
finalization without collected sub-stream errors settles on that single
outcome; but when sub-stream errors were collected, finalization rejects
with the bare list of collected errors rather than one aggregated error. -/
theorem parsium_C5 :
    (∀ (shape : Shape) (opts : ObjOptions) (fuel : Nat) (errs : List JsError)
      (fields : List (String × Value)) (path : Option String),
      errs ≠ [] → busboyFinish shape opts fuel errs fields path = .rejectedList errs) ∧
    (∀ (shape : Shape) (opts : ObjOptions) (fuel : Nat) (fields : List (String × Value))
      (path : Option String),
      busboyFinish shape opts fuel [] fields path =
        match objectVT shape opts fuel (.obj fields) path with
        | .ok v => .resolved v
        | .error e => .rejectedErr e) ∧
    (∀ (shape : Shape) (fields : List (String × Value)) (path : Option String) (f : Nat),
      (recKeys fields).Nodup → (recKeys shape).Nodup →
      objectFailMsgs shape path (.obj fields) ≠ [] →
      objectVT shape defaultObjOptions (f + 1) (.obj fields) path =
        .error (.parsing (String.intercalate "\n" (objectFailMsgs shape path (.obj fields))))) := by
  refine ⟨?_, ?_, ?_⟩
  · intro shape opts fuel errs fields path hne
    unfold busboyFinish
    rw [if_pos (List.length_pos.2 hne)]
  · intro shape opts fuel fields path
    rfl
  · intro shape fields path f hndF hndS hne
    rw [objectVT_structured_eq shape defaultObjOptions f (.obj fields) path rfl hndF hndS
      (Or.inl rfl)]
    rw [if_neg (by simpa [List.isEmpty_iff] using hne)]

/-- C5 witness: one collected error already rejects as a bare
one-element array, while the error-free path aggregates two tagged
failures into exactly one thrown `ParsingError`. -/
theorem parsium_C5_witness :
    busboyFinish [("a", intParser {})] defaultObjOptions 3 [.other "io fail"] [] none =
      .rejectedList [.other "io fail"] ∧
    objectVT [("a", intParser {}), ("b", stringParser {})] defaultObjOptions 1
      (.obj [("a", .str "y"), ("b", .arr [.null])]) none =
      .error (.parsing "[.a] should be an integer\n[.b] cannot be converted to a string") := by
  constructor
  · exact parsium_C5.1 [("a", intParser {})] defaultObjOptions 3 [.other "io fail"] [] none
      (by simp)
  · have h := parsium_C5.2.2 [("a", intParser {}), ("b", stringParser {})]
      [("a", .str "y"), ("b", .arr [.null])] none 0 (by decide) (by decide) (by decide)
    exact h.trans (by rfl)

/-! Boundary sniffer lemmas. -/

theorem head_append_of_head {l t : List Nat} {a : Nat} (h : l.head? = some a) :
    (l ++ t).head? = some a := by
  cases l with
  | nil => cases h
  | cons b rest => simpa using h

theorem findCRLF_append_some :
    ∀ (l : List Nat) (t : List Nat) (i : Nat), findCRLF l = some i → findCRLF (l ++ t) = some i := by
  intro l
  induction l with
  | nil =>
    intro t i h
    cases h
  | cons b rest ih =>
    intro t i h
    rw [findCRLF] at h
    by_cases hc : b = 13 ∧ rest.head? = some 10
    · rw [if_pos hc] at h
      cases h
      rw [List.cons_append, findCRLF, if_pos ⟨hc.1, head_append_of_head hc.2⟩]
    · rw [if_neg hc] at h
      obtain ⟨j, hj, hji⟩ := Option.map_eq_some.1 h
      cases rest with
      | nil => cases hj
      | cons b2 rest2 =>
        have hc2 : ¬(b = 13 ∧ ((b2 :: rest2) ++ t).head? = some 10) := by
          intro hcc
          exact hc ⟨hcc.1, by simpa using hcc.2⟩
        rw [List.cons_append, findCRLF, if_neg hc2, ih t j hj, ← hji]
        rfl

theorem findCRLF_none_of_append {l t : List Nat} (h : findCRLF (l ++ t) = none) :
    findCRLF l = none := by
  cases hc : findCRLF l with
  | none => rfl
  | some i =>
    rw [findCRLF_append_some l t i hc] at h
    cases h

theorem sniffPrefix_succ (c : List Nat) (cs : List (List Nat)) (k : Nat) :
    sniffPrefix (c :: cs) (k + 1) = c ++ sniffPrefix cs k := by
  simp [sniffPrefix]

theorem sniffRun_step {acc : List Nat} {c : List Nat} (cs : List (List Nat))
    (hfind : findCRLF (acc ++ c) = none)
    (hlen : (acc ++ c).length ≤ MAX_BUFFER_SIZE) :
    sniffRun acc false (c :: cs) = sniffRun (acc ++ c) false cs := by
  rw [sniffRun]
  simp only [Bool.false_eq_true, if_false, hfind]
  have hflag : decide ((acc ++ c).length > MAX_BUFFER_SIZE) = false := by
    simp only [decide_eq_false_iff_not, gt_iff_lt, not_lt]
    exact hlen
  rw [hflag]

theorem sniffRun_flagged (acc : List Nat) (c : List Nat) (cs : List (List Nat)) :
    sniffRun acc true (c :: cs) =
      .rejected "Boundary not found within reasonable buffer size" := by
  rw [sniffRun]
  rfl

theorem sniff_decide_line :
    ∀ (kk : Nat) (cs : List (List Nat)) (acc : List Nat) (i : Nat),
    kk < cs.length →
    findCRLF (acc ++ sniffPrefix cs (kk + 1)) = some i →
    findCRLF (acc ++ sniffPrefix cs kk) = none →
    (acc ++ sniffPrefix cs kk).length ≤ MAX_BUFFER_SIZE →
    sniffRun acc false cs =
      (if (utf8DecodeList ((acc ++ sniffPrefix cs (kk + 1)).take i)).take 2 = ['-', '-'] then
        .ok (String.mk ((utf8DecodeList ((acc ++ sniffPrefix cs (kk + 1)).take i)).drop 2))
          (acc ++ sniffPrefix cs (kk + 1))
      else .rejected "Invalid multipart/form-data: does not start with boundary") := by
  intro kk
  induction kk with
  | zero =>
    intro cs acc i hlen hfind hprev hcap
    cases cs with
    | nil => cases hlen
    | cons c cs2 =>
      rw [sniffPrefix_succ] at hfind ⊢
      simp only [sniffPrefix, List.take_zero, List.flatten_nil, List.append_nil] at hprev hcap
      rw [show sniffPrefix cs2 0 = [] from rfl, List.append_nil] at hfind ⊢
      rw [sniffRun]
      simp only [Bool.false_eq_true, if_false, hfind]
  | succ kk ih =>
    intro cs acc i hlen hfind hprev hcap
    cases cs with
    | nil => cases hlen
    | cons c cs2 =>
      rw [sniffPrefix_succ, ← List.append_assoc] at hfind hprev hcap ⊢
      have hfind0 : findCRLF (acc ++ c) = none := by
        rw [List.append_assoc] at hprev
        exact findCRLF_none_of_append (by rw [← List.append_assoc] at hprev; exact hprev)
      have hlen0 : (acc ++ c).length ≤ MAX_BUFFER_SIZE := by
        have := hcap
        simp only [List.length_append] at this ⊢
        omega
      rw [sniffRun_step cs2 hfind0 hlen0]
      exact ih cs2 (acc ++ c) i (by simpa using hlen) hfind hprev hcap

theorem sniff_bufsize :
    ∀ (j : Nat) (cs : List (List Nat)) (acc : List Nat),
    j + 1 < cs.length →
    (acc ++ sniffPrefix cs (j + 1)).length > MAX_BUFFER_SIZE →
    findCRLF (acc ++ sniffPrefix cs (j + 1)) = none →
    sniffRun acc false cs = .rejected "Boundary not found within reasonable buffer size" := by
  intro j
  induction j with
  | zero =>
    intro cs acc hlen hover hnone
    cases cs with
    | nil => cases hlen
    | cons c cs2 =>
      rw [sniffPrefix_succ] at hover hnone
      rw [show sniffPrefix cs2 0 = [] from rfl, List.append_nil] at hover hnone
      cases cs2 with
      | nil => simp at hlen
      | cons c2 cs3 =>
        rw [sniffRun]
        simp only [Bool.false_eq_true, if_false, hnone]
        have hflag : decide ((acc ++ c).length > MAX_BUFFER_SIZE) = true := by
          simp only [decide_eq_true_eq]
          exact hover
        rw [hflag]
        exact sniffRun_flagged (acc ++ c) c2 cs3
  | succ j ih =>
    intro cs acc hlen hover hnone
    cases cs with
    | nil => cases hlen
    | cons c cs2 =>
      rw [sniffPrefix_succ, ← List.append_assoc] at hover hnone
      have hfind0 : findCRLF (acc ++ c) = none := by
        rw [List.append_assoc] at hnone
        exact findCRLF_none_of_append (by rw [← List.append_assoc] at hnone; exact hnone)
      by_cases hbig : (acc ++ c).length > MAX_BUFFER_SIZE
      · cases cs2 with
        | nil => simp at hlen
        | cons c2 cs3 =>
          rw [sniffRun]
          simp only [Bool.false_eq_true, if_false, hfind0]
          have hflag : decide ((acc ++ c).length > MAX_BUFFER_SIZE) = true := by
            simp only [decide_eq_true_eq]
            exact hbig
          rw [hflag]
          exact sniffRun_flagged (acc ++ c) c2 cs3
      · rw [sniffRun_step cs2 hfind0 (by omega)]
        exact ih cs2 (acc ++ c) (by simpa using hlen) hover hnone

theorem findCRLF_replicate_none (a : Nat) (ha : a ≠ 13) :
    ∀ n, findCRLF (List.replicate n a) = none := by
  intro n
  induction n with
  | zero => rfl
  | succ n ih =>
    rw [List.replicate_succ, findCRLF, if_neg (fun hc => ha hc.1), ih]
    rfl

theorem sniffPrefix_one (c : List Nat) (cs : List (List Nat)) : sniffPrefix (c :: cs) 1 = c := by
  simp [sniffPrefix]

/-- C3: boundary sniffing of an unknown-boundary stream case-splits as
follows. If the first CRLF-terminated line is completed at some chunk while
the previously buffered bytes were within the cap, then: when the line
starts with the two-byte marker `--` sniffing succeeds with the rest of the
line as boundary (and the full scratch buffer as the bytes to replay), and
otherwise it rejects with the framing error. If instead the scratch buffer
exceeds the 1024-byte cap with no CRLF found and another chunk follows,
sniffing rejects with the buffer-size error. -/
theorem parsium_C3 :
    (∀ (chunks : List (List Nat)) (k i : Nat),
      k < chunks.length →
      findCRLF (sniffPrefix chunks (k + 1)) = some i →
      findCRLF (sniffPrefix chunks k) = none →
      (sniffPrefix chunks k).length ≤ MAX_BUFFER_SIZE →
      (utf8DecodeList ((sniffPrefix chunks (k + 1)).take i)).take 2 = ['-', '-'] →
      parseFormDataSniff chunks =
        .ok (String.mk ((utf8DecodeList ((sniffPrefix chunks (k + 1)).take i)).drop 2))
          (sniffPrefix chunks (k + 1))) ∧
    (∀ (chunks : List (List Nat)) (k i : Nat),
      k < chunks.length →
      findCRLF (sniffPrefix chunks (k + 1)) = some i →
      findCRLF (sniffPrefix chunks k) = none →
      (sniffPrefix chunks k).length ≤ MAX_BUFFER_SIZE →
      (utf8DecodeList ((sniffPrefix chunks (k + 1)).take i)).take 2 ≠ ['-', '-'] →
      parseFormDataSniff chunks =
        .rejected "Invalid multipart/form-data: does not start with boundary") ∧
    (∀ (chunks : List (List Nat)) (j : Nat),
      j + 1 < chunks.length →
      (sniffPrefix chunks (j + 1)).length > MAX_BUFFER_SIZE →
      findCRLF (sniffPrefix chunks (j + 1)) = none →
      parseFormDataSniff chunks =
        .rejected "Boundary not found within reasonable buffer size") := by
  refine ⟨?_, ?_, ?_⟩
  · intro chunks k i hk hfind hprev hcap hdash
    have h := sniff_decide_line k chunks [] i hk (by simpa using hfind) (by simpa using hprev)
      (by simpa using hcap)
    rw [parseFormDataSniff, h]
    rw [if_pos (by simpa using hdash)]
    simp
  · intro chunks k i hk hfind hprev hcap hdash
    have h := sniff_decide_line k chunks [] i hk (by simpa using hfind) (by simpa using hprev)
      (by simpa using hcap)
    rw [parseFormDataSniff, h]
    rw [if_neg (by simpa using hdash)]
  · intro chunks j hj hover hnone
    have h := sniff_bufsize j chunks [] hj (by simpa using hover) (by simpa using hnone)
    rw [parseFormDataSniff, h]

/-- C3 witness: the stream `--XYZ\r\ndata` yields boundary `XYZ` with the
whole first chunk consumed; a stream starting `garbage\r\n` rejects with the
framing error; 1025 bytes without CRLF followed by another chunk rejects
with the buffer-size error. -/
theorem parsium_C3_witness :
    parseFormDataSniff [[45, 45, 88, 89, 90, 13, 10, 100, 97, 116, 97]] =
      .ok "XYZ" [45, 45, 88, 89, 90, 13, 10, 100, 97, 116, 97] ∧
    parseFormDataSniff [[103, 97, 114, 98, 13, 10, 109]] =
      .rejected "Invalid multipart/form-data: does not start with boundary" ∧
    parseFormDataSniff [List.replicate 1025 65, [66]] =
      .rejected "Boundary not found within reasonable buffer size" := by
  refine ⟨?_, ?_, ?_⟩
  · have h := parsium_C3.1 [[45, 45, 88, 89, 90, 13, 10, 100, 97, 116, 97]] 0 5
      (by decide) (by decide) (by decide) (by decide) (by decide)
    exact h.trans (by rfl)
  · exact parsium_C3.2.1 [[103, 97, 114, 98, 13, 10, 109]] 0 4
      (by decide) (by decide) (by decide) (by decide) (by decide)
  · have hpre : sniffPrefix [List.replicate 1025 65, [66]] 1 = List.replicate 1025 65 :=
      sniffPrefix_one _ _
    refine parsium_C3.2.2 [List.replicate 1025 65, [66]] 0 (by decide) ?_ ?_
    · rw [hpre, List.length_replicate]
      decide
    · rw [hpre]
      exact findCRLF_replicate_none 65 (by decide) 1025

/-! Success-output invariants of the object combinator (toward idempotence). -/

theorem processEntries_keys_mono (shape : Shape) (opts : ObjOptions) (path : Option String) :
    ∀ (entries result : List (String × Value)) (errs : List String)
      (out : List (String × Value)) (errs2 : List String),
    processEntries shape opts path entries result errs = .ok (out, errs2) →
    ∀ k ∈ recKeys result, k ∈ recKeys out := by
  intro entries
  induction entries with
  | nil =>
    intro result errs out errs2 h k hk
    rw [processEntries] at h
    cases h
    exact hk
  | cons kv rest ih =>
    intro result errs out errs2 h k hk
    obtain ⟨k1, v1⟩ := kv
    cases hlk : List.lookup k1 shape with
    | some p =>
      cases hp : p v1 (childPath path k1) with
      | ok r =>
        rw [show processEntries shape opts path ((k1, v1) :: rest) result errs =
            processEntries shape opts path rest (recordSet result k1 r) errs from by
          simp only [processEntries, hlk, hp]] at h
        exact ih _ _ _ _ h k (mem_keys_recordSet k1 r hk)
      | error e =>
        cases e with
        | parsing m =>
          rw [show processEntries shape opts path ((k1, v1) :: rest) result errs =
              processEntries shape opts path rest result (errs ++ [m]) from by
            simp only [processEntries, hlk, hp]] at h
          exact ih _ _ _ _ h k hk
        | other m =>
          rw [show processEntries shape opts path ((k1, v1) :: rest) result errs =
              processEntries shape opts path rest result errs from by
            simp only [processEntries, hlk, hp]] at h
          exact ih _ _ _ _ h k hk
    | none =>
      cases hig : opts.ignoreUnknown.getD false with
      | true =>
        rw [show processEntries shape opts path ((k1, v1) :: rest) result errs =
            processEntries shape opts path rest result errs from by
          simp only [processEntries, hlk, hig, if_true]] at h
        exact ih _ _ _ _ h k hk
      | false =>
        rw [show processEntries shape opts path ((k1, v1) :: rest) result errs =
            .error (.parsing ("[" ++ pathD path ++ "." ++ k1 ++ "] is not allowed")) from by
          simp only [processEntries, hlk, hig, Bool.false_eq_true, if_false]] at h
        exact Except.noConfusion h

theorem processEntries_errs_extend (shape : Shape) (opts : ObjOptions) (path : Option String) :
    ∀ (entries result : List (String × Value)) (errs : List String)
      (out : List (String × Value)) (errs2 : List String),
    processEntries shape opts path entries result errs = .ok (out, errs2) →
    ∃ ext, errs2 = errs ++ ext := by
  intro entries
  induction entries with
  | nil =>
    intro result errs out errs2 h
    rw [processEntries] at h
    cases h
    exact ⟨[], by simp⟩
  | cons kv rest ih =>
    intro result errs out errs2 h
    obtain ⟨k1, v1⟩ := kv
    cases hlk : List.lookup k1 shape with
    | some p =>
      cases hp : p v1 (childPath path k1) with
      | ok r =>
        rw [show processEntries shape opts path ((k1, v1) :: rest) result errs =
            processEntries shape opts path rest (recordSet result k1 r) errs from by
          simp only [processEntries, hlk, hp]] at h
        exact ih _ _ _ _ h
      | error e =>
        cases e with
        | parsing m =>
          rw [show processEntries shape opts path ((k1, v1) :: rest) result errs =
              processEntries shape opts path rest result (errs ++ [m]) from by
            simp only [processEntries, hlk, hp]] at h
          obtain ⟨ext, hext⟩ := ih _ _ _ _ h
          exact ⟨[m] ++ ext, by rw [hext, List.append_assoc]⟩
        | other m =>
          rw [show processEntries shape opts path ((k1, v1) :: rest) result errs =
              processEntries shape opts path rest result errs from by
            simp only [processEntries, hlk, hp]] at h
          exact ih _ _ _ _ h
    | none =>
      cases hig : opts.ignoreUnknown.getD false with
      | true =>
        rw [show processEntries shape opts path ((k1, v1) :: rest) result errs =
            processEntries shape opts path rest result errs from by
          simp only [processEntries, hlk, hig, if_true]] at h
        exact ih _ _ _ _ h
      | false =>
        rw [show processEntries shape opts path ((k1, v1) :: rest) result errs =
            .error (.parsing ("[" ++ pathD path ++ "." ++ k1 ++ "] is not allowed")) from by
          simp only [processEntries, hlk, hig, Bool.false_eq_true, if_false]] at h
        exact Except.noConfusion h

theorem processEntries_inv (shape : Shape) (opts : ObjOptions) (path : Option String) :
    ∀ (entries result : List (String × Value)) (errs : List String)
      (out : List (String × Value)) (errs2 : List String),
    processEntries shape opts path entries result errs = .ok (out, errs2) →
    (recKeys result).Nodup →
    (∀ kv ∈ result, ∃ p v2, List.lookup kv.1 shape = some p ∧
      p v2 (childPath path kv.1) = .ok kv.2) →
    (recKeys out).Nodup ∧
    (∀ kv ∈ out, ∃ p v2, List.lookup kv.1 shape = some p ∧
      p v2 (childPath path kv.1) = .ok kv.2) := by
  intro entries
  induction entries with
  | nil =>
    intro result errs out errs2 h hnd hmem
    rw [processEntries] at h
    cases h
    exact ⟨hnd, hmem⟩
  | cons kv rest ih =>
    intro result errs out errs2 h hnd hmem
    obtain ⟨k1, v1⟩ := kv
    cases hlk : List.lookup k1 shape with
    | some p =>
      cases hp : p v1 (childPath path k1) with
      | ok r =>
        rw [show processEntries shape opts path ((k1, v1) :: rest) result errs =
            processEntries shape opts path rest (recordSet result k1 r) errs from by
          simp only [processEntries, hlk, hp]] at h
        refine ih _ _ _ _ h (recKeys_recordSet_nodup k1 r hnd) ?_
        intro kv2 hkv2
        rcases mem_recordSet hkv2 with hold | hnew
        · exact hmem kv2 hold
        · subst hnew
          exact ⟨p, v1, hlk, hp⟩
      | error e =>
        cases e with
        | parsing m =>
          rw [show processEntries shape opts path ((k1, v1) :: rest) result errs =
              processEntries shape opts path rest result (errs ++ [m]) from by
            simp only [processEntries, hlk, hp]] at h
          exact ih _ _ _ _ h hnd hmem
        | other m =>
          rw [show processEntries shape opts path ((k1, v1) :: rest) result errs =
              processEntries shape opts path rest result errs from by
            simp only [processEntries, hlk, hp]] at h
          exact ih _ _ _ _ h hnd hmem
    | none =>
      cases hig : opts.ignoreUnknown.getD false with
      | true =>
        rw [show processEntries shape opts path ((k1, v1) :: rest) result errs =
            processEntries shape opts path rest result errs from by
          simp only [processEntries, hlk, hig, if_true]] at h
        exact ih _ _ _ _ h hnd hmem
      | false =>
        rw [show processEntries shape opts path ((k1, v1) :: rest) result errs =
            .error (.parsing ("[" ++ pathD path ++ "." ++ k1 ++ "] is not allowed")) from by
          simp only [processEntries, hlk, hig, Bool.false_eq_true, if_false]] at h
        exact Except.noConfusion h

theorem processEntries_cov (shape : Shape) (opts : ObjOptions) (path : Option String)
    (hNO : NoOtherFailShape shape) :
    ∀ (entries result : List (String × Value)) (errs : List String)
      (out : List (String × Value)) (errs2 : List String),
    processEntries shape opts path entries result errs = .ok (out, errs2) →
    errs2 = errs →
    ∀ kv ∈ entries, (List.lookup kv.1 shape).isSome = true → kv.1 ∈ recKeys out := by
  intro entries
  induction entries with
  | nil =>
    intro result errs out errs2 h heq kv hkv
    cases hkv
  | cons kv0 rest ih =>
    intro result errs out errs2 h heq kv hkv hsome
    obtain ⟨k1, v1⟩ := kv0
    cases hlk : List.lookup k1 shape with
    | some p =>
      cases hp : p v1 (childPath path k1) with
      | ok r =>
        rw [show processEntries shape opts path ((k1, v1) :: rest) result errs =
            processEntries shape opts path rest (recordSet result k1 r) errs from by
          simp only [processEntries, hlk, hp]] at h
        rcases List.mem_cons.1 hkv with hh | hh
        · subst hh
          exact processEntries_keys_mono shape opts path rest _ errs out errs2 h k1
            (self_mem_keys_recordSet result k1 r)
        · exact ih _ _ _ _ h heq kv hh hsome
      | error e =>
        cases e with
        | parsing m =>
          rw [show processEntries shape opts path ((k1, v1) :: rest) result errs =
              processEntries shape opts path rest result (errs ++ [m]) from by
            simp only [processEntries, hlk, hp]] at h
          obtain ⟨ext, hext⟩ := processEntries_errs_extend shape opts path rest _ _ _ _ h
          rw [heq] at hext
          have hlen := congrArg List.length hext
          simp [List.length_append] at hlen
        | other m =>
          exact absurd hp (hNO (k1, p) (lookup_mem hlk) v1 (childPath path k1) m)
    | none =>
      cases hig : opts.ignoreUnknown.getD false with
      | true =>
        rw [show processEntries shape opts path ((k1, v1) :: rest) result errs =
            processEntries shape opts path rest result errs from by
          simp only [processEntries, hlk, hig, if_true]] at h
        rcases List.mem_cons.1 hkv with hh | hh
        · subst hh
          rw [hlk] at hsome
          cases hsome
        · exact ih _ _ _ _ h heq kv hh hsome
      | false =>
        rw [show processEntries shape opts path ((k1, v1) :: rest) result errs =
            .error (.parsing ("[" ++ pathD path ++ "." ++ k1 ++ "] is not allowed")) from by
          simp only [processEntries, hlk, hig, Bool.false_eq_true, if_false]] at h
        exact Except.noConfusion h

theorem processMissing_keys_mono (path : Option String) (valueKeys : List String) :
    ∀ (sh : List (String × RawParser)) (result : List (String × Value)) (errs : List String),
    ∀ k ∈ recKeys result, k ∈ recKeys (processMissing path valueKeys sh result errs).1 := by
  intro sh
  induction sh with
  | nil =>
    intro result errs k hk
    exact hk
  | cons kp rest ih =>
    intro result errs k hk
    obtain ⟨k1, p⟩ := kp
    by_cases hin : valueKeys.contains k1
    · rw [show processMissing path valueKeys ((k1, p) :: rest) result errs =
          processMissing path valueKeys rest result errs from by
        simp only [processMissing, hin, if_true]]
      exact ih result errs k hk
    · have hinb : valueKeys.contains k1 = false := by simpa using hin
      cases hp : p .undef (childPath path k1) with
      | ok r =>
        rw [show processMissing path valueKeys ((k1, p) :: rest) result errs =
            processMissing path valueKeys rest (recordSet result k1 r) errs from by
          simp only [processMissing, hinb, Bool.false_eq_true, if_false, hp]]
        exact ih _ errs k (mem_keys_recordSet k1 r hk)
      | error e =>
        rw [show processMissing path valueKeys ((k1, p) :: rest) result errs =
            processMissing path valueKeys rest result
              (errs ++ ["[" ++ pathD path ++ "." ++ k1 ++ "] is required"]) from by
          simp only [processMissing, hinb, Bool.false_eq_true, if_false, hp]]
        exact ih result _ k hk

theorem processMissing_errs_extend (path : Option String) (valueKeys : List String) :
    ∀ (sh : List (String × RawParser)) (result : List (String × Value)) (errs : List String),
    ∃ ext, (processMissing path valueKeys sh result errs).2 = errs ++ ext := by
  intro sh
  induction sh with
  | nil =>
    intro result errs
    exact ⟨[], by simp [processMissing]⟩
  | cons kp rest ih =>
    intro result errs
    obtain ⟨k1, p⟩ := kp
    by_cases hin : valueKeys.contains k1
    · rw [show processMissing path valueKeys ((k1, p) :: rest) result errs =
          processMissing path valueKeys rest result errs from by
        simp only [processMissing, hin, if_true]]
      exact ih result errs
    · have hinb : valueKeys.contains k1 = false := by simpa using hin
      cases hp : p .undef (childPath path k1) with
      | ok r =>
        rw [show processMissing path valueKeys ((k1, p) :: rest) result errs =
            processMissing path valueKeys rest (recordSet result k1 r) errs from by
          simp only [processMissing, hinb, Bool.false_eq_true, if_false, hp]]
        exact ih _ errs
      | error e =>
        rw [show processMissing path valueKeys ((k1, p) :: rest) result errs =
            processMissing path valueKeys rest result
              (errs ++ ["[" ++ pathD path ++ "." ++ k1 ++ "] is required"]) from by
          simp only [processMissing, hinb, Bool.false_eq_true, if_false, hp]]
        obtain ⟨ext, hext⟩ := ih result (errs ++ ["[" ++ pathD path ++ "." ++ k1 ++ "] is required"])
        exact ⟨["[" ++ pathD path ++ "." ++ k1 ++ "] is required"] ++ ext,
          by rw [hext, List.append_assoc]⟩

theorem processMissing_inv (shape : Shape) (path : Option String) (valueKeys : List String) :
    ∀ (sh : List (String × RawParser)) (result : List (String × Value)) (errs : List String),
    (∀ kp ∈ sh, List.lookup kp.1 shape = some kp.2) →
    (recKeys result).Nodup →
    (∀ kv ∈ result, ∃ p v2, List.lookup kv.1 shape = some p ∧
      p v2 (childPath path kv.1) = .ok kv.2) →
    (recKeys (processMissing path valueKeys sh result errs).1).Nodup ∧
    (∀ kv ∈ (processMissing path valueKeys sh result errs).1, ∃ p v2,
      List.lookup kv.1 shape = some p ∧ p v2 (childPath path kv.1) = .ok kv.2) := by
  intro sh
  induction sh with
  | nil =>
    intro result errs _ hnd hmem
    exact ⟨hnd, hmem⟩
  | cons kp rest ih =>
    intro result errs hsub hnd hmem
    obtain ⟨k1, p⟩ := kp
    have hsubr : ∀ kp ∈ rest, List.lookup kp.1 shape = some kp.2 :=
      fun kp hkp => hsub kp (List.mem_cons_of_mem _ hkp)
    by_cases hin : valueKeys.contains k1
    · rw [show processMissing path valueKeys ((k1, p) :: rest) result errs =
          processMissing path valueKeys rest result errs from by
        simp only [processMissing, hin, if_true]]
      exact ih result errs hsubr hnd hmem
    · have hinb : valueKeys.contains k1 = false := by simpa using hin
      cases hp : p .undef (childPath path k1) with
      | ok r =>
        rw [show processMissing path valueKeys ((k1, p) :: rest) result errs =
            processMissing path valueKeys rest (recordSet result k1 r) errs from by
          simp only [processMissing, hinb, Bool.false_eq_true, if_false, hp]]
        refine ih _ errs hsubr (recKeys_recordSet_nodup k1 r hnd) ?_
        intro kv2 hkv2
        rcases mem_recordSet hkv2 with hold | hnew
        · exact hmem kv2 hold
        · subst hnew
          exact ⟨p, .undef, hsub (k1, p) (List.mem_cons_self _ _), hp⟩
      | error e =>
        rw [show processMissing path valueKeys ((k1, p) :: rest) result errs =
            processMissing path valueKeys rest result
              (errs ++ ["[" ++ pathD path ++ "." ++ k1 ++ "] is required"]) from by
          simp only [processMissing, hinb, Bool.false_eq_true, if_false, hp]]
        exact ih result _ hsubr hnd hmem

theorem processMissing_cov (path : Option String) (valueKeys : List String) :
    ∀ (sh : List (String × RawParser)) (result : List (String × Value)) (errs : List String),
    (processMissing path valueKeys sh result errs).2 = errs →
    ∀ kp ∈ sh, valueKeys.contains kp.1 = false →
    kp.1 ∈ recKeys (processMissing path valueKeys sh result errs).1 := by
  intro sh
  induction sh with
  | nil =>
    intro result errs _ kp hkp
    cases hkp
  | cons kp0 rest ih =>
    intro result errs heq kp hkp hcont
    obtain ⟨k1, p⟩ := kp0
    by_cases hin : valueKeys.contains k1
    · rw [show processMissing path valueKeys ((k1, p) :: rest) result errs =
          processMissing path valueKeys rest result errs from by
        simp only [processMissing, hin, if_true]] at heq ⊢
      rcases List.mem_cons.1 hkp with hh | hh
      · subst hh
        rw [hin] at hcont
        cases hcont
      · exact ih result errs heq kp hh hcont
    · have hinb : valueKeys.contains k1 = false := by simpa using hin
      cases hp : p .undef (childPath path k1) with
      | ok r =>
        rw [show processMissing path valueKeys ((k1, p) :: rest) result errs =
            processMissing path valueKeys rest (recordSet result k1 r) errs from by
          simp only [processMissing, hinb, Bool.false_eq_true, if_false, hp]] at heq ⊢
        rcases List.mem_cons.1 hkp with hh | hh
        · subst hh
          exact processMissing_keys_mono path valueKeys rest _ errs k1
            (self_mem_keys_recordSet result k1 r)
        · exact ih _ errs heq kp hh hcont
      | error e =>
        rw [show processMissing path valueKeys ((k1, p) :: rest) result errs =
            processMissing path valueKeys rest result
              (errs ++ ["[" ++ pathD path ++ "." ++ k1 ++ "] is required"]) from by
          simp only [processMissing, hinb, Bool.false_eq_true, if_false, hp]] at heq
        obtain ⟨ext, hext⟩ := processMissing_errs_extend path valueKeys rest result
          (errs ++ ["[" ++ pathD path ++ "." ++ k1 ++ "] is required"])
        rw [heq] at hext
        have hlen := congrArg List.length hext
        simp [List.length_append] at hlen

theorem objectVT_success_output (shape : Shape) (opts : ObjOptions)
    (hndS : (recKeys shape).Nodup) (hNO : NoOtherFailShape shape) :
    ∀ (f : Nat) (x : Value) (path : Option String) (w : Value),
    objectVT shape opts f x path = .ok w →
    ∃ out, w = .obj out ∧ ShapeOutput shape path out := by
  intro f
  induction f with
  | zero =>
    intro x path w h
    cases h
  | succ f ih =>
    intro x path w h
    simp only [objectVT] at h
    by_cases hst : (typeofObject x && !isNullV x && !isBufferV x) = true
    · rw [if_pos hst] at h
      rcases hpe : processEntries shape opts path (jsEntries x) [] [] with e | pr
      · simp only [hpe] at h
        exact Except.noConfusion h
      · obtain ⟨res1, errs1⟩ := pr
        simp only [hpe] at h
        by_cases hemp :
            (processMissing path (recKeys (jsEntries x)) shape res1 errs1).2.isEmpty = true
        · rw [if_pos hemp] at h
          injection h with hobj
          refine ⟨(processMissing path (recKeys (jsEntries x)) shape res1 errs1).1,
            hobj.symm, ?_⟩
          have hsub : ∀ kp ∈ shape, List.lookup kp.1 shape = some kp.2 :=
            fun kp hkp => lookup_eq_of_mem_nodup hndS hkp
          have hpei := processEntries_inv shape opts path (jsEntries x) [] [] res1 errs1 hpe
            (by simp [recKeys]) (by intro kv hkv; simp at hkv)
          have hpmi := processMissing_inv shape path (recKeys (jsEntries x)) shape res1 errs1
            hsub hpei.1 hpei.2
          have hempty : (processMissing path (recKeys (jsEntries x)) shape res1 errs1).2 = [] :=
            List.isEmpty_iff.1 hemp
          obtain ⟨ext, hext⟩ :=
            processMissing_errs_extend path (recKeys (jsEntries x)) shape res1 errs1
          rw [hempty] at hext
          have herrs1 : errs1 = [] := (List.append_eq_nil.1 hext.symm).1
          refine ⟨hpmi.1, ?_, hpmi.2⟩
          intro k
          constructor
          · intro hkout
            obtain ⟨kv, hkv, hkeq⟩ := List.mem_map.1 hkout
            obtain ⟨p, v2, hlkp, _⟩ := hpmi.2 kv hkv
            rw [hkeq] at hlkp
            exact (lookup_isSome_iff k shape).1 (by rw [hlkp]; rfl)
          · intro hkshape
            by_cases hkin : k ∈ recKeys (jsEntries x)
            · obtain ⟨kv, hkv, hkeq⟩ := List.mem_map.1 hkin
              have hsome : (List.lookup kv.1 shape).isSome = true := by
                rw [hkeq]
                exact (lookup_isSome_iff k shape).2 hkshape
              have hres1 : kv.1 ∈ recKeys res1 :=
                processEntries_cov shape opts path hNO (jsEntries x) [] [] res1 errs1
                  (by rw [hpe]) herrs1 kv hkv hsome
              have hfin := processMissing_keys_mono path (recKeys (jsEntries x)) shape res1
                errs1 kv.1 hres1
              rw [hkeq] at hfin
              exact hfin
            · obtain ⟨kp, hkp, hkeq⟩ := List.mem_map.1 hkshape
              have hcont : (recKeys (jsEntries x)).contains kp.1 = false := by
                simpa using (show kp.1 ∉ recKeys (jsEntries x) from by rw [hkeq]; exact hkin)
              have heq2 : (processMissing path (recKeys (jsEntries x)) shape res1 errs1).2 =
                  errs1 := by
                rw [hempty, herrs1]
              have hfin := processMissing_cov path (recKeys (jsEntries x)) shape res1 errs1
                heq2 kp hkp hcont
              rw [hkeq] at hfin
              exact hfin
        · rw [if_neg hemp] at h
          exact Except.noConfusion h
    · rw [if_neg hst] at h
      rcases hs : stringParser {} x path with e | sv
      · simp only [hs] at h
        exact Except.noConfusion h
      · cases sv with
        | str s =>
          rcases hj : jsonParse s with _ | j
          · simp only [hs, hj] at h
            exact Except.noConfusion h
          · simp only [hs, hj] at h
            rcases hrec : objectVT shape opts f j path with e2 | r
            · rw [hrec] at h
              exact Except.noConfusion h
            · rw [hrec] at h
              injection h with hrw
              subst hrw
              exact ih j path _ hrec
        | undef => simp only [hs] at h; exact Except.noConfusion h
        | null => simp only [hs] at h; exact Except.noConfusion h
        | bool b => simp only [hs] at h; exact Except.noConfusion h
        | num n => simp only [hs] at h; exact Except.noConfusion h
        | buf bs => simp only [hs] at h; exact Except.noConfusion h
        | arr xs => simp only [hs] at h; exact Except.noConfusion h
        | obj es => simp only [hs] at h; exact Except.noConfusion h

theorem filterMap_eq_self {α : Type} :
    ∀ (l : List α) (f : α → Option α), (∀ a ∈ l, f a = some a) → l.filterMap f = l := by
  intro l f
  induction l with
  | nil =>
    intro _
    rfl
  | cons a rest ih =>
    intro hall
    rw [List.filterMap_cons, hall a (List.mem_cons_self _ _),
      ih (fun a2 ha2 => hall a2 (List.mem_cons_of_mem _ ha2))]

theorem objectVT_reparse (shape : Shape) (opts : ObjOptions) (path : Option String)
    (out : List (String × Value)) (g : Nat) (hndS : (recKeys shape).Nodup)
    (hId : IdempotentShape shape) (hout : ShapeOutput shape path out) :
    objectVT shape opts (g + 1) (.obj out) path = .ok (.obj out) := by
  obtain ⟨hnd, hset, hmem⟩ := hout
  have hparse : ∀ kv ∈ out, ∃ p, List.lookup kv.1 shape = some p ∧
      p kv.2 (childPath path kv.1) = .ok kv.2 := by
    intro kv hkv
    obtain ⟨p, v2, hlk, hp⟩ := hmem kv hkv
    exact ⟨p, hlk, hId (kv.1, p) (lookup_mem hlk) v2 (childPath path kv.1) kv.2 hp⟩
  rw [objectVT_structured_eq shape opts g (.obj out) path rfl hnd hndS
    (Or.inr (fun kv hkv => (hset kv.1).1 (List.mem_map.2 ⟨kv, hkv, rfl⟩)))]
  have hdr : declaredResults shape path out = out := by
    refine filterMap_eq_self out _ ?_
    intro kv hkv
    obtain ⟨p, hlk, hp⟩ := hparse kv hkv
    simp only [hlk, hp]
  have hdm : declaredFailMsgs shape path out = [] := by
    rw [declaredFailMsgs, List.filterMap_eq_nil_iff]
    intro kv hkv
    obtain ⟨p, hlk, hp⟩ := hparse kv hkv
    simp only [hlk, hp]
  have hcontall : ∀ kp ∈ shape, (recKeys out).contains kp.1 = true := by
    intro kp hkp
    simpa using (hset kp.1).2 (List.mem_map.2 ⟨kp, hkp, rfl⟩)
  have hmr : missingResults shape path (recKeys out) = [] := by
    rw [missingResults, List.filterMap_eq_nil_iff]
    intro kp hkp
    rw [if_pos (by simpa using hcontall kp hkp)]
  have hmm : missingFailMsgs shape path (recKeys out) = [] := by
    rw [missingFailMsgs, List.filterMap_eq_nil_iff]
    intro kp hkp
    rw [if_pos (by simpa using hcontall kp hkp)]
  have hfm : objectFailMsgs shape path (.obj out) = [] := by
    rw [objectFailMsgs, show jsEntries (.obj out) = out from rfl, hdm, hmm]
    rfl
  have hsc : objectSuccess shape path (.obj out) = out := by
    rw [objectSuccess, show jsEntries (.obj out) = out from rfl, hdr, hmr]
    simp
  rw [hfm, hsc]
  rfl

/-- C9 counterexample: the shape `{a: transform(int(), n => n + 1)}` is a
well-typed shape, parses `{a: 1}` to `{a: 2}`, but parses that output to
`{a: 3}` — reapplying the parser to its own successful output is not the
identity. -/
theorem parsium_C9_cex :
    objectVT [("a", transform (intParser {})
        (fun v => match v with | .num n => .num (n + 1) | w => w))]
      defaultObjOptions 2 (.obj [("a", .num 1)]) none = .ok (.obj [("a", .num 2)]) ∧
    objectVT [("a", transform (intParser {})
        (fun v => match v with | .num n => .num (n + 1) | w => w))]
      defaultObjOptions 2 (.obj [("a", .num 2)]) none = .ok (.obj [("a", .num 3)]) ∧
    Value.obj [("a", .num 3)] ≠ Value.obj [("a", .num 2)] := by
  refine ⟨by rfl, by rfl, ?_⟩
  intro h
  injection h with h1
  injection h1 with h2
  injection h2 with h3 h4
  injection h4 with h5
  cases h5

/-- C9 as amended: for shapes whose parsers fail only with `ParsingError`
and parse each of their own successful outputs back to themselves, a
successful object parse is idempotent — reapplying the combinator (at any
fuel) to its own successful output returns exactly that output. Shapes
containing value-rewriting parsers such as `transform(int(), n => n + 1)`
are excluded, as the counterexample shows they must be. -/
theorem parsium_C9 (shape : Shape) (opts : ObjOptions) (x : Value) (path : Option String)
    (f g : Nat) (w : Value) (hndS : (recKeys shape).Nodup) (hNO : NoOtherFailShape shape)
    (hId : IdempotentShape shape) (h : objectVT shape opts f x path = .ok w) :
    objectVT shape opts (g + 1) w path = .ok w := by
  obtain ⟨out, rfl, hout⟩ := objectVT_success_output shape opts hndS hNO f x path w h
  exact objectVT_reparse shape opts path out g hndS hId hout

/-- C9 witness: with the identity-like shape `{a: any-style parser}` the
successful parse of `{a: 5}` reparses to itself. -/
theorem parsium_C9_witness :
    objectVT [("a", fun (v : Value) (_ : Option String) => (.ok v : Except JsError Value))]
      defaultObjOptions 1 (.obj [("a", .num 5)]) none = .ok (.obj [("a", .num 5)]) := by
  refine parsium_C9 [("a", fun v _ => .ok v)] defaultObjOptions (.obj [("a", .num 5)]) none
    1 0 (.obj [("a", .num 5)]) (by decide) ?_ ?_ (by rfl)
  · intro kp hkp v2 p2 m2 hbad
    rw [List.mem_singleton] at hkp
    subst hkp
    exact Except.noConfusion hbad
  · intro kp hkp v2 p2 r hok
    rw [List.mem_singleton] at hkp
    subst hkp
    injection hok with hv
    rfl

end Parsium
